import Mathlib

/-!
Verification of the mini-tq core: the canonical key serializer
(`packages/core/src/hash.ts`, function `stableStringify` and `hashQueryKey`)
and the batched notification primitive
(`packages/core/src/subscribable.ts`, class `Subscribable`).

The serializer is embedded twice:
* a tree model (`Value`, `stableStringify`) for acyclic inputs — JavaScript
  values whose object graph is acyclic serialize exactly like their tree
  unfolding, because the implementation removes a node from the `seen` set on
  exit, so acyclic sharing behaves like copying;
* a heap model (`HObj`, `strHV`) with explicit references, used to reason
  about the cycle detection (`seen` set) and the `CircularReference` errors.

JavaScript numbers are modelled by `JNum` (NaN or an integral value printed in
decimal), which covers the integral doubles in the safe range where the
JavaScript number-to-string conversion prints plain decimal digits.
String order is modelled by code-point lexicographic comparison on the
character list, which agrees with the JavaScript UTF-16 code-unit comparison
used by `Array.prototype.sort` on all strings of basic-plane characters.
-/

namespace MiniTQ

/- ======================= string-level utilities ======================= -/

/-- Lexicographic comparison of character lists by code point; models the
comparator behaviour of the JavaScript `<` / `>` operators on strings. -/
def listCharLe : List Char → List Char → Bool
  | [], _ => true
  | _ :: _, [] => false
  | a :: as, b :: bs =>
    if a.toNat < b.toNat then true
    else if b.toNat < a.toNat then false
    else listCharLe as bs

/-- `strLe s t` decides `s <= t` in the string order used by the source's
sort comparators. -/
def strLe (s t : String) : Bool := listCharLe s.data t.data

/-- Lower-case hexadecimal digit, as produced by `JSON.stringify` escapes. -/
def hexDigit (n : Nat) : Char :=
  if n < 10 then Char.ofNat (48 + n) else Char.ofNat (87 + n)

/-- Escape of one character inside a JSON string literal, as produced by
`JSON.stringify` (quote, backslash, the named control escapes, and `\u00XX`
for the remaining control characters; all other characters pass through). -/
def escChar (c : Char) : List Char :=
  if c = '"' then ['\\', '"']
  else if c = '\\' then ['\\', '\\']
  else if c = '\x08' then ['\\', 'b']
  else if c = '\x09' then ['\\', 't']
  else if c = '\x0a' then ['\\', 'n']
  else if c = '\x0c' then ['\\', 'f']
  else if c = '\x0d' then ['\\', 'r']
  else if c.toNat < 32 then
    ['\\', 'u', '0', '0', hexDigit (c.toNat / 16), hexDigit (c.toNat % 16)]
  else [c]

/-- `JSON.stringify` applied to a string, as used by `stableStringify` for the
`str:` tag and for plain-object string keys. -/
def jsonQuote (s : String) : String :=
  ⟨'"' :: s.data.foldr (fun c acc => escChar c ++ acc) ['"']⟩

/-- `join(',')` on a list of strings. -/
def joinComma : List String → String
  | [] => ""
  | [s] => s
  | s :: rest => s ++ "," ++ joinComma rest

/-- Stable insertion of `x` into a list: `x` is placed after every element
`y` with `le y x`. -/
def insertStable (le : α → α → Bool) (x : α) : List α → List α
  | [] => [x]
  | y :: ys => if le y x then y :: insertStable le x ys else x :: y :: ys

/-- Stable sort (insertion sort, processing elements left to right).
`Array.prototype.sort` is required to be stable, and a stable sort by a total
preorder is unique, so this models the source's `.sort(...)` calls exactly. -/
def sortStable (le : α → α → Bool) (l : List α) : List α :=
  l.foldl (fun acc x => insertStable le x acc) []

/- ======================= tree (acyclic) value model ======================= -/

/-- A JavaScript number: `NaN`, or an integral value (printed in decimal by
the number-to-string conversion). -/
inductive JNum where
  | nan
  | int (i : Int)

/-- The string a `JNum` interpolates to (`${value}` / `Array.prototype.join`). -/
def renderJNum : JNum → String
  | .nan => "NaN"
  | .int i => toString i

/-- An own-property key of a plain object: a string key, or a symbol key
carrying its (possibly absent) description. -/
inductive ObjKey where
  | strKey (s : String)
  | symKey (descr : Option String)

/-- Acyclic JavaScript values accepted by `stableStringify`, one constructor
per branch of the source's dispatch:
`date none` is an invalid date, `date (some iso)` carries `toISOString()`;
`regexp r` carries `value.toString()`; `typed ctor ns` carries the
constructor name and the element list; `fn name` carries `value.name`
(`""` for anonymous functions); `exotic tag` is the fallback branch carrying
`Object.prototype.toString.call(value)`. -/
inductive Value where
  | vnull
  | undef
  | str (s : String)
  | num (n : JNum)
  | bool (b : Bool)
  | bigint (i : Int)
  | sym (descr : Option String)
  | fn (name : String)
  | date (iso : Option String)
  | regexp (src : String)
  | typed (ctor : String) (elems : List JNum)
  | arr (elems : List Value)
  | map (entries : List (Value × Value))
  | set (elems : List Value)
  | obj (pairs : List (ObjKey × Value))
  | exotic (tag : String)

/-- Serialized form of a `Map`: the `(serializedKey, serializedValue)` pairs
are stably sorted by serialized key (the source comparator
`a[0] < b[0] ? -1 : a[0] > b[0] ? 1 : 0`), then joined as `key:value` and
wrapped in `map:{...}`. -/
def mapBody (rendered : List (String × String)) : String :=
  "map:\x7b" ++
    joinComma
      ((sortStable (fun a b => strLe a.1 b.1) rendered).map (fun p => p.1 ++ ":" ++ p.2)) ++
    "\x7d"

/-- Serialized form of a `Set`: element serializations sorted (default string
sort), joined, wrapped in `set:[...]`. -/
def setBody (rendered : List String) : String :=
  "set:[" ++ joinComma (sortStable strLe rendered) ++ "]"

/-- The label emitted for a plain-object key: `key:"..."` for string keys
(JSON-quoted), `keysym:<description>` for symbol keys (empty when the
description is absent). -/
def renderObjKey : ObjKey → String
  | .strKey s => "key:" ++ jsonQuote s
  | .symKey d => "keysym:" ++ d.getD ""

/-- The string an object key is sorted by in `ownKeysSorted`: the key itself
for string keys, the description (`?? ''`) for symbol keys. -/
def keyRaw : ObjKey → String
  | .strKey s => s
  | .symKey d => d.getD ""

def isStrKey : ObjKey → Bool
  | .strKey _ => true
  | .symKey _ => false

/-- Serialized form of a plain object from its `(key, serializedValue)` pairs:
string-keyed pairs sorted by key, then symbol-keyed pairs sorted (stably) by
description, each emitted as `label=>value` and wrapped in `{...}`.
This mirrors `ownKeysSorted` followed by the emission loop: sorting the
pairs after serializing the values equals serializing after sorting, because
the comparators only inspect the keys and the sort is stable. -/
def objBody (rendered : List (ObjKey × String)) : String :=
  "\x7b" ++
    joinComma
      ((sortStable (fun a b => strLe (keyRaw a.1) (keyRaw b.1))
          (rendered.filter (fun p => isStrKey p.1)) ++
        sortStable (fun a b => strLe (keyRaw a.1) (keyRaw b.1))
          (rendered.filter (fun p => !isStrKey p.1))).map
        (fun p => renderObjKey p.1 ++ "=>" ++ p.2)) ++
    "\x7d"

mutual

/-- The canonical serializer of `packages/core/src/hash.ts` on acyclic values
(`seen` never fires on a tree, so the cycle check is omitted here; the heap
model below carries it). Each branch mirrors the source branch of the same
kind, in particular every kind is emitted behind its distinct tag. -/
def stableStringify : Value → String
  | .vnull => "null"
  | .str s => "str:" ++ jsonQuote s
  | .num n => "num:" ++ renderJNum n
  | .bool b => "bool:" ++ (if b then "1" else "0")
  | .bigint i => "bigint:" ++ toString i
  | .undef => "undef"
  | .sym d => "sym:" ++ d.getD ""
  | .fn name => "fn:" ++ (if name = "" then "anonymous" else name)
  | .date iso => "date:" ++ iso.getD "invalid"
  | .regexp r => "regexp:" ++ r
  | .typed ctor ns => "typed:" ++ ctor ++ ":" ++ joinComma (ns.map renderJNum)
  | .arr es => "[" ++ joinComma (serializeList es) ++ "]"
  | .map entries => mapBody (serializeEntries entries)
  | .set es => setBody (serializeList es)
  | .obj pairs => objBody (serializeObjEntries pairs)
  | .exotic tag => "obj:" ++ tag

/-- Element-wise serialization (`value.map((v) => stableStringify(v, seen))`). -/
def serializeList : List Value → List String
  | [] => []
  | v :: vs => stableStringify v :: serializeList vs

/-- Entry-wise serialization of `Map` entries
(`[stableStringify(k, seen), stableStringify(v, seen)]`). -/
def serializeEntries : List (Value × Value) → List (String × String)
  | [] => []
  | (k, v) :: rest => (stableStringify k, stableStringify v) :: serializeEntries rest

/-- Value serialization of plain-object pairs, keeping the key. -/
def serializeObjEntries : List (ObjKey × Value) → List (ObjKey × String)
  | [] => []
  | (k, v) :: rest => (k, stableStringify v) :: serializeObjEntries rest

end

/-- `hashQueryKey`: the canonical hash is the serialized key behind the fixed
`qk:` namespace tag. -/
def hashQueryKey (v : Value) : String := "qk:" ++ stableStringify v


/- ======================= value kinds and their tags ======================= -/

/-- The dispatch kinds of `stableStringify`, one per source branch. -/
inductive VKind where
  | knull | kundef | kstr | knum | kbool | kbigint | ksym | kfn
  | kdate | kregexp | ktyped | karr | kmap | kset | kobj | kexotic
deriving DecidableEq

/-- The kind of a value (which source branch serializes it). -/
def kindOf : Value → VKind
  | .vnull => .knull
  | .undef => .kundef
  | .str _ => .kstr
  | .num _ => .knum
  | .bool _ => .kbool
  | .bigint _ => .kbigint
  | .sym _ => .ksym
  | .fn _ => .kfn
  | .date _ => .kdate
  | .regexp _ => .kregexp
  | .typed _ _ => .ktyped
  | .arr _ => .karr
  | .map _ => .kmap
  | .set _ => .kset
  | .obj _ => .kobj
  | .exotic _ => .kexotic

/-- Recover the producing kind from the first characters of a serialized
form. Each branch of `stableStringify` opens with a distinct tag (`null`,
`num:`, `str:`, ... , `[`, `map:{`, `set:[`, `{`, `obj:`), so a short scan of
the head characters identifies the branch. -/
def kindScan : List Char → Option VKind
  | 'n' :: 'u' :: 'm' :: _ => some .knum
  | 'n' :: _ => some .knull
  | 'u' :: _ => some .kundef
  | 's' :: 't' :: _ => some .kstr
  | 's' :: 'y' :: _ => some .ksym
  | 's' :: _ => some .kset
  | 'b' :: 'o' :: _ => some .kbool
  | 'b' :: _ => some .kbigint
  | 'f' :: _ => some .kfn
  | 'd' :: _ => some .kdate
  | 'r' :: _ => some .kregexp
  | 't' :: _ => some .ktyped
  | 'm' :: _ => some .kmap
  | 'o' :: _ => some .kexotic
  | '[' :: _ => some .karr
  | '\x7b' :: _ => some .kobj
  | _ => none

/-- `,` does not occur in the string. -/
def commaFree (s : String) : Prop := ',' ∉ s.data

/-- The `Map` body as the spec's sentence describes it: serialize each entry
as `serializedKey ++ ":" ++ serializedValue` and sort these entry strings
lexicographically before joining. Stated only to contrast with the
implementation's `mapBody`, which sorts by serialized key alone. -/
def specSortedMapBody (rendered : List (String × String)) : String :=
  "map:\x7b" ++
    joinComma (sortStable strLe (rendered.map (fun p => p.1 ++ ":" ++ p.2))) ++
    "\x7d"

/- ======================= heap model with cycle detection ======================= -/

/-- A non-reference (non-collection) value stored inline in the heap model;
one constructor per non-collection branch of `stableStringify`. -/
inductive HAtom where
  | hnull
  | hundef
  | hstr (s : String)
  | hnum (n : JNum)
  | hbool (b : Bool)
  | hbigint (i : Int)
  | hsym (descr : Option String)
  | hfn (name : String)
  | hdate (iso : Option String)
  | hregexp (src : String)
  | htyped (ctor : String) (elems : List JNum)

/-- The tree value denoted by an atom. -/
def atomToValue : HAtom → Value
  | .hnull => .vnull
  | .hundef => .undef
  | .hstr s => .str s
  | .hnum n => .num n
  | .hbool b => .bool b
  | .hbigint i => .bigint i
  | .hsym d => .sym d
  | .hfn n => .fn n
  | .hdate iso => .date iso
  | .hregexp r => .regexp r
  | .htyped c ns => .typed c ns

/-- A value in the heap model: an atom, or a reference to a heap object. -/
inductive HVal where
  | atom (a : HAtom)
  | href (b : Nat)

/-- A heap object: one of the collection shapes `stableStringify` recurses
into (and tracks in `seen`), or the exotic fallback (no cycle check). -/
inductive HObj where
  | harr (elems : List HVal)
  | hmap (entries : List (HVal × HVal))
  | hset (elems : List HVal)
  | hobj (pairs : List (ObjKey × HVal))
  | hexotic (tag : String)

/-- The collection kind that closed a cycle. -/
inductive CKind where
  | ckArr | ckMap | ckSet | ckObj
deriving DecidableEq

/-- The exact `TypeError` message the source throws for each collection kind. -/
def circularMessage : CKind → String
  | .ckArr => "stableStringify: circular array reference"
  | .ckMap => "stableStringify: circular Map reference"
  | .ckSet => "stableStringify: circular Set reference"
  | .ckObj => "stableStringify: circular object reference"

/-- Serialization failure in the heap model: a circular reference (the only
failure the source can raise), or a reference outside the heap (impossible
for heaps obtained from JavaScript values; kept to make lookup total). -/
inductive SErr where
  | circular (k : CKind)
  | dangling
deriving DecidableEq

/-- Invariant carried by the `seen` set during serialization: distinct
addresses, all inside the heap. -/
def SeenOk (h : List HObj) (l : List Nat) : Prop := l.Nodup ∧ ∀ a ∈ l, a < h.length

mutual

/-- `stableStringify` in the heap model: the `seen`-set threading, cycle
checks and error messages of the source, branch by branch. `seen` collects
the addresses of the collections currently being serialized on the recursion
path; each is removed on exit (here: the extended set is only used for the
recursive calls). -/
def strHV (h : List HObj) (seen : List Nat) (hs : SeenOk h seen) (v : HVal) :
    Except SErr String :=
  match v with
  | .atom a => .ok (stableStringify (atomToValue a))
  | .href b =>
    if hblt : b < h.length then
      match h.get ⟨b, hblt⟩ with
      | .hexotic tag => .ok ("obj:" ++ tag)
      | .harr es =>
        if hmem : b ∈ seen then .error (.circular .ckArr)
        else
          match strHList h (b :: seen)
              ⟨List.nodup_cons.2 ⟨hmem, hs.1⟩, by
                intro a ha
                rcases List.mem_cons.1 ha with rfl | ha
                · exact hblt
                · exact hs.2 a ha⟩ es with
          | .error e => .error e
          | .ok parts => .ok ("[" ++ joinComma parts ++ "]")
      | .hmap entries =>
        if hmem : b ∈ seen then .error (.circular .ckMap)
        else
          match strHPairs h (b :: seen)
              ⟨List.nodup_cons.2 ⟨hmem, hs.1⟩, by
                intro a ha
                rcases List.mem_cons.1 ha with rfl | ha
                · exact hblt
                · exact hs.2 a ha⟩ entries with
          | .error e => .error e
          | .ok rendered => .ok (mapBody rendered)
      | .hset es =>
        if hmem : b ∈ seen then .error (.circular .ckSet)
        else
          match strHList h (b :: seen)
              ⟨List.nodup_cons.2 ⟨hmem, hs.1⟩, by
                intro a ha
                rcases List.mem_cons.1 ha with rfl | ha
                · exact hblt
                · exact hs.2 a ha⟩ es with
          | .error e => .error e
          | .ok parts => .ok (setBody parts)
      | .hobj pairs =>
        if hmem : b ∈ seen then .error (.circular .ckObj)
        else
          match strHObjPairs h (b :: seen)
              ⟨List.nodup_cons.2 ⟨hmem, hs.1⟩, by
                intro a ha
                rcases List.mem_cons.1 ha with rfl | ha
                · exact hblt
                · exact hs.2 a ha⟩ pairs with
          | .error e => .error e
          | .ok rendered => .ok (objBody rendered)
    else .error .dangling
termination_by (h.length - seen.length, 0)
decreasing_by
  all_goals
    have hlen : seen.length < h.length := by
      have h1 : (b :: seen).Nodup := List.nodup_cons.2 ⟨hmem, hs.1⟩
      have h2 : (b :: seen) ⊆ List.range h.length := by
        intro x hx
        rcases List.mem_cons.1 hx with rfl | hx
        · simpa using hblt
        · simpa using hs.2 x hx
      have := List.Subperm.length_le (List.subperm_of_subset h1 h2)
      simpa using this
  all_goals
    simp only [List.length_cons]
  all_goals left
  all_goals omega

/-- Element list serialization in the heap model (arrays and sets). -/
def strHList (h : List HObj) (seen : List Nat) (hs : SeenOk h seen) (es : List HVal) :
    Except SErr (List String) :=
  match es with
  | [] => .ok []
  | e :: rest =>
    match strHV h seen hs e with
    | .error err => .error err
    | .ok s =>
      match strHList h seen hs rest with
      | .error err => .error err
      | .ok others => .ok (s :: others)
termination_by (h.length - seen.length, es.length + 1)
decreasing_by
  · right
    omega
  · simp only [List.length_cons]
    right
    omega

/-- `Map` entry serialization in the heap model (key first, then value). -/
def strHPairs (h : List HObj) (seen : List Nat) (hs : SeenOk h seen)
    (entries : List (HVal × HVal)) : Except SErr (List (String × String)) :=
  match entries with
  | [] => .ok []
  | (k, v) :: rest =>
    match strHV h seen hs k with
    | .error err => .error err
    | .ok ks =>
      match strHV h seen hs v with
      | .error err => .error err
      | .ok vs =>
        match strHPairs h seen hs rest with
        | .error err => .error err
        | .ok others => .ok ((ks, vs) :: others)
termination_by (h.length - seen.length, entries.length + 1)
decreasing_by
  · right
    omega
  · right
    omega
  · simp only [List.length_cons]
    right
    omega

/-- Plain-object pair serialization in the heap model. -/
def strHObjPairs (h : List HObj) (seen : List Nat) (hs : SeenOk h seen)
    (pairs : List (ObjKey × HVal)) : Except SErr (List (ObjKey × String)) :=
  match pairs with
  | [] => .ok []
  | (k, v) :: rest =>
    match strHV h seen hs v with
    | .error err => .error err
    | .ok vs =>
      match strHObjPairs h seen hs rest with
      | .error err => .error err
      | .ok others => .ok ((k, vs) :: others)
termination_by (h.length - seen.length, pairs.length + 1)
decreasing_by
  · right
    omega
  · simp only [List.length_cons]
    right
    omega

end

/-- All references of a heap value stay inside a heap of length `n`. -/
def ClosedV (n : Nat) : HVal → Prop
  | .atom _ => True
  | .href b => b < n

/-- All references of a heap object stay inside a heap of length `n`. -/
def ClosedObj (n : Nat) : HObj → Prop
  | .harr es => ∀ e ∈ es, ClosedV n e
  | .hmap entries => ∀ p ∈ entries, ClosedV n p.1 ∧ ClosedV n p.2
  | .hset es => ∀ e ∈ es, ClosedV n e
  | .hobj pairs => ∀ p ∈ pairs, ClosedV n p.2
  | .hexotic _ => True

/-- Every reference stored anywhere in the heap stays inside the heap
(always true of a heap extracted from JavaScript objects). -/
def ClosedHeap (h : List HObj) : Prop := ∀ o ∈ h, ClosedObj h.length o

/-- `Unfolds h seen v t`: starting with the active set `seen`, the heap value
`v` unwinds — without ever re-entering an active collection — to the tree
`t`. `Unfolds h [] v t` states that `v` is acyclic with tree unfolding `t`;
it is exactly the recursion structure of a successful `stableStringify` run. -/
inductive Unfolds (h : List HObj) : List Nat → HVal → Value → Prop where
  | uatom : ∀ seen a, Unfolds h seen (.atom a) (atomToValue a)
  | uexotic : ∀ seen b tag, h[b]? = some (.hexotic tag) →
      Unfolds h seen (.href b) (.exotic tag)
  | uarr : ∀ seen b es ts, h[b]? = some (.harr es) → b ∉ seen →
      (hlen : es.length = ts.length) →
      (∀ i (h1 : i < es.length) (h2 : i < ts.length),
        Unfolds h (b :: seen) (es.get ⟨i, h1⟩) (ts.get ⟨i, h2⟩)) →
      Unfolds h seen (.href b) (.arr ts)
  | umap : ∀ seen b es ts, h[b]? = some (.hmap es) → b ∉ seen →
      (hlen : es.length = ts.length) →
      (∀ i (h1 : i < es.length) (h2 : i < ts.length),
        Unfolds h (b :: seen) (es.get ⟨i, h1⟩).1 (ts.get ⟨i, h2⟩).1) →
      (∀ i (h1 : i < es.length) (h2 : i < ts.length),
        Unfolds h (b :: seen) (es.get ⟨i, h1⟩).2 (ts.get ⟨i, h2⟩).2) →
      Unfolds h seen (.href b) (.map ts)
  | uset : ∀ seen b es ts, h[b]? = some (.hset es) → b ∉ seen →
      (hlen : es.length = ts.length) →
      (∀ i (h1 : i < es.length) (h2 : i < ts.length),
        Unfolds h (b :: seen) (es.get ⟨i, h1⟩) (ts.get ⟨i, h2⟩)) →
      Unfolds h seen (.href b) (.set ts)
  | uobj : ∀ seen b es ts, h[b]? = some (.hobj es) → b ∉ seen →
      (hlen : es.length = ts.length) →
      (∀ i (h1 : i < es.length) (h2 : i < ts.length),
        (es.get ⟨i, h1⟩).1 = (ts.get ⟨i, h2⟩).1) →
      (∀ i (h1 : i < es.length) (h2 : i < ts.length),
        Unfolds h (b :: seen) (es.get ⟨i, h1⟩).2 (ts.get ⟨i, h2⟩).2) →
      Unfolds h seen (.href b) (.obj ts)

/- ======================= notification bus model ======================= -/

/-- The mutable state of one `Subscribable` instance: the insertion-ordered
listener registry (`Set<Listener<T>>`, here listener identities), and the
batching fields `pendingFlush`, `hasQueuedValue`, `lastValue`. `lastValue` is
`none` only before the first `notify` (the source leaves the field
uninitialized there). -/
structure BusState (T : Type) where
  listeners : List Nat
  pendingFlush : Bool
  hasQueuedValue : Bool
  lastValue : Option T

/-- `Set.add`: appends at the end (insertion order), no-op when present. -/
def addListener (l : Nat) (ls : List Nat) : List Nat :=
  if l ∈ ls then ls else ls ++ [l]

/-- The state captured by one unsubscribe closure: the listener it removes
and its private `unsubscribed` flag. -/
structure Unsub where
  lid : Nat
  unsubscribed : Bool

/-- Observable events of one bus operation, in order of occurrence:
hook firings, listener invocations (with the delivered payload), and
`onNotifyError` routings. -/
inductive BusEvent (T : Type) where
  | subscribedEvt
  | unsubscribedEvt
  | invoked (lid : Nat) (value : T)
  | errorRouted (lid : Nat)

/-- `Subscribable.subscribe`: add to the registry, fire `onSubscribe`
(always), hand back a fresh unsubscribe closure. -/
def subscribe (s : BusState T) (l : Nat) : BusState T × Unsub × List (BusEvent T) :=
  ({ s with listeners := addListener l s.listeners }, ⟨l, false⟩, [.subscribedEvt])

/-- Running an unsubscribe closure: a no-op once `unsubscribed` is set;
otherwise sets it, deletes the listener, and fires `onUnsubscribe` exactly
when the listener was still present. -/
def runUnsub (s : BusState T) (u : Unsub) : BusState T × Unsub × List (BusEvent T) :=
  if u.unsubscribed then (s, u, [])
  else
    ({ s with listeners := s.listeners.erase u.lid }, ⟨u.lid, true⟩,
      if u.lid ∈ s.listeners then [.unsubscribedEvt] else [])

/-- `Subscribable.notify`: record the latest payload, mark it queued; if a
flush is already scheduled return at once, else schedule one (model: set
`pendingFlush`). No listener runs here — the event trace is empty. -/
def notify (s : BusState T) (v : T) : BusState T × List (BusEvent T) :=
  let s1 := { s with lastValue := some v, hasQueuedValue := true }
  if s1.pendingFlush then (s1, [])
  else ({ s1 with pendingFlush := true }, [])

/-- A sequence of synchronous `notify` calls (no suspension point between
them), with the concatenated event trace. -/
def notifySeq : BusState T → List T → BusState T × List (BusEvent T)
  | s, [] => (s, [])
  | s, v :: vs =>
    let r := notify s v
    let rest := notifySeq r.1 vs
    (rest.1, r.2 ++ rest.2)

/-- The delivery loop of the flush: invoke each snapshotted listener with the
payload; a throw (`beh l payload = true`) is caught at the call site and
routed to `onNotifyError`, and the loop continues. -/
def deliverAll (beh : Nat → T → Bool) (payload : T) : List Nat → List (BusEvent T)
  | [] => []
  | l :: rest =>
    .invoked l payload :: ((if beh l payload then [.errorRouted l] else []) ++
      deliverAll beh payload rest)

/-- The microtask body scheduled by `notify`: clear `pendingFlush`; if no
value is queued do nothing; otherwise read the payload, clear
`hasQueuedValue`, snapshot the current listener registry (`Array.from`) and
run the delivery loop over the snapshot. `beh l p = true` means listener `l`
throws when invoked with `p`. -/
def flush (beh : Nat → T → Bool) (s : BusState T) : BusState T × List (BusEvent T) :=
  let s1 := { s with pendingFlush := false }
  if s1.hasQueuedValue then
    match s1.lastValue with
    | some payload =>
      ({ s1 with hasQueuedValue := false }, deliverAll beh payload s1.listeners)
    | none => (s1, [])
  else (s1, [])

/-- A listener-registry operation issued in the window between a `notify` and
its flush: a subscribe or an unsubscribe (of a live closure for `l`). -/
inductive WinOp where
  | wsub (l : Nat)
  | wunsub (l : Nat)

/-- Apply a window operation through the real `subscribe` / `runUnsub`. -/
def applyWin (s : BusState T) : WinOp → BusState T
  | .wsub l => (subscribe s l).1
  | .wunsub l => (runUnsub s ⟨l, false⟩).1

/-- The invocation records of a trace: which listener received which payload,
in order. -/
def invokedEvents : List (BusEvent T) → List (Nat × T)
  | [] => []
  | .invoked l v :: rest => (l, v) :: invokedEvents rest
  | _ :: rest => invokedEvents rest

/-- The `onNotifyError` routings of a trace attributed to listener `l`. -/
def errorsFor (l : Nat) (evts : List (BusEvent T)) : List (BusEvent T) :=
  evts.filter (fun e => match e with
    | .errorRouted m => m = l
    | _ => false)


/- ======================= theorems: string order toolkit ======================= -/

theorem stringDataEq {s t : String} (h : s.data = t.data) : s = t :=
  congrArg String.mk h

theorem charEqOfToNat {c d : Char} (h : c.toNat = d.toNat) : c = d := by
  rw [← Char.ofNat_toNat c, ← Char.ofNat_toNat d, h]

theorem listCharLe_total : ∀ a b : List Char, listCharLe a b = true ∨ listCharLe b a = true := by
  intro a
  induction a with
  | nil => intro b; left; rfl
  | cons c as ih =>
    intro b
    cases b with
    | nil => right; rfl
    | cons d bs =>
      by_cases h1 : c.toNat < d.toNat
      · left; simp [listCharLe, h1]
      · by_cases h2 : d.toNat < c.toNat
        · right; simp [listCharLe, h2]
        · rcases ih bs with h | h
          · left; simp [listCharLe, h1, h2, h]
          · right; simp [listCharLe, h1, h2, h]

theorem listCharLe_trans :
    ∀ a b c : List Char, listCharLe a b = true → listCharLe b c = true →
      listCharLe a c = true := by
  intro a
  induction a with
  | nil => intro b c _ _; rfl
  | cons x as ih =>
    intro b c hab hbc
    cases b with
    | nil => simp [listCharLe] at hab
    | cons y bs =>
      cases c with
      | nil => simp [listCharLe] at hbc
      | cons z cs =>
        by_cases h1 : x.toNat < y.toNat <;> by_cases h2 : y.toNat < z.toNat
        · simp [listCharLe, show x.toNat < z.toNat by omega]
        · by_cases h3 : z.toNat < y.toNat
          · simp [listCharLe, h2, h3] at hbc
          · have hyz : y.toNat = z.toNat := by omega
            simp [listCharLe, show x.toNat < z.toNat by omega]
        · by_cases h4 : y.toNat < x.toNat
          · simp [listCharLe, h1, h4] at hab
          · have hxy : x.toNat = y.toNat := by omega
            simp [listCharLe, show x.toNat < z.toNat by omega]
        · by_cases h3 : z.toNat < y.toNat
          · simp [listCharLe, h2, h3] at hbc
          · by_cases h4 : y.toNat < x.toNat
            · simp [listCharLe, h1, h4] at hab
            · simp only [listCharLe, if_neg h1, if_neg h4] at hab
              simp only [listCharLe, if_neg h2, if_neg h3] at hbc
              simp only [listCharLe, if_neg (show ¬ x.toNat < z.toNat by omega),
                if_neg (show ¬ z.toNat < x.toNat by omega)]
              exact ih bs cs hab hbc

theorem listCharLe_antisymm :
    ∀ a b : List Char, listCharLe a b = true → listCharLe b a = true → a = b := by
  intro a
  induction a with
  | nil =>
    intro b _ hba
    cases b with
    | nil => rfl
    | cons d bs => simp [listCharLe] at hba
  | cons x as ih =>
    intro b hab hba
    cases b with
    | nil => simp [listCharLe] at hab
    | cons y bs =>
      by_cases h1 : x.toNat < y.toNat
      · simp [listCharLe, h1, show ¬ y.toNat < x.toNat by omega] at hba
      · by_cases h2 : y.toNat < x.toNat
        · simp [listCharLe, h1, h2] at hab
        · have hxy : x = y := charEqOfToNat (by omega)
          subst hxy
          simp only [listCharLe, if_neg h1, if_neg h2] at hab hba
          rw [ih bs hab hba]

theorem strLe_total (s t : String) : strLe s t = true ∨ strLe t s = true :=
  listCharLe_total s.data t.data

theorem strLe_trans {s t u : String} (h1 : strLe s t = true) (h2 : strLe t u = true) :
    strLe s u = true :=
  listCharLe_trans s.data t.data u.data h1 h2

theorem strLe_antisymm {s t : String} (h1 : strLe s t = true) (h2 : strLe t s = true) :
    s = t :=
  stringDataEq (listCharLe_antisymm s.data t.data h1 h2)

/- ======================= theorems: stable sort toolkit ======================= -/

theorem insertStable_perm (le : α → α → Bool) (x : α) (l : List α) :
    (insertStable le x l).Perm (x :: l) := by
  induction l with
  | nil => exact List.Perm.refl _
  | cons y ys ih =>
    by_cases h : le y x = true
    · simp only [insertStable, if_pos h]
      exact (ih.cons y).trans (List.Perm.swap x y ys)
    · simp only [insertStable, if_neg h]
      exact List.Perm.refl _

theorem sortStable_perm_aux (le : α → α → Bool) :
    ∀ (l acc : List α),
      (List.foldl (fun a x => insertStable le x a) acc l).Perm (acc ++ l) := by
  intro l
  induction l with
  | nil =>
    intro acc
    rw [List.foldl_nil, List.append_nil]
  | cons x xs ih =>
    intro acc
    rw [List.foldl_cons]
    have h1 := ih (insertStable le x acc)
    have h2 : (insertStable le x acc ++ xs).Perm ((x :: acc) ++ xs) :=
      (insertStable_perm le x acc).append_right xs
    have h3 : ((x :: acc) ++ xs).Perm (acc ++ x :: xs) := List.perm_middle.symm
    exact h1.trans (h2.trans h3)

theorem sortStable_perm (le : α → α → Bool) (l : List α) : (sortStable le l).Perm l := by
  simpa using sortStable_perm_aux le l []

theorem insertStable_pairwise (le : α → α → Bool)
    (htot : ∀ a b, le a b = true ∨ le b a = true)
    (htr : ∀ a b c, le a b = true → le b c = true → le a c = true)
    (x : α) {l : List α} (h : l.Pairwise (fun a b => le a b = true)) :
    (insertStable le x l).Pairwise (fun a b => le a b = true) := by
  induction l with
  | nil => simp [insertStable]
  | cons y ys ih =>
    rcases List.pairwise_cons.1 h with ⟨hy, hys⟩
    by_cases hle : le y x = true
    · simp only [insertStable, if_pos hle]
      refine List.pairwise_cons.2 ⟨?_, ih hys⟩
      intro z hz
      have hz2 := (insertStable_perm le x ys).mem_iff.1 hz
      rcases List.mem_cons.1 hz2 with rfl | hz3
      · exact hle
      · exact hy z hz3
    · simp only [insertStable, if_neg hle]
      have hxy : le x y = true := by
        rcases htot x y with h | h
        · exact h
        · exact absurd h hle
      refine List.pairwise_cons.2 ⟨?_, h⟩
      intro z hz
      rcases List.mem_cons.1 hz with rfl | hz2
      · exact hxy
      · exact htr x y z hxy (hy z hz2)

theorem sortStable_pairwise_aux (le : α → α → Bool)
    (htot : ∀ a b, le a b = true ∨ le b a = true)
    (htr : ∀ a b c, le a b = true → le b c = true → le a c = true) :
    ∀ (l acc : List α), acc.Pairwise (fun a b => le a b = true) →
      (List.foldl (fun a x => insertStable le x a) acc l).Pairwise
        (fun a b => le a b = true) := by
  intro l
  induction l with
  | nil => intro acc hacc; rw [List.foldl_nil]; exact hacc
  | cons x xs ih =>
    intro acc hacc
    rw [List.foldl_cons]
    exact ih _ (insertStable_pairwise le htot htr x hacc)

theorem sortStable_pairwise (le : α → α → Bool)
    (htot : ∀ a b, le a b = true ∨ le b a = true)
    (htr : ∀ a b c, le a b = true → le b c = true → le a c = true) (l : List α) :
    (sortStable le l).Pairwise (fun a b => le a b = true) :=
  sortStable_pairwise_aux le htot htr l [] (List.Pairwise.nil)

/-- The central uniqueness fact behind order-insensitivity: a stable sort by
a key comparison is a function of the entry multiset whenever the keys are
pairwise distinct. -/
theorem sortStable_key_eq {α : Type} (f : α → String) {l1 l2 : List α}
    (hp : l1.Perm l2) (hnd : (l1.map f).Nodup) :
    sortStable (fun a b => strLe (f a) (f b)) l1
      = sortStable (fun a b => strLe (f a) (f b)) l2 := by
  have htot : ∀ a b : α, strLe (f a) (f b) = true ∨ strLe (f b) (f a) = true :=
    fun a b => strLe_total (f a) (f b)
  have htr : ∀ a b c : α, strLe (f a) (f b) = true → strLe (f b) (f c) = true →
      strLe (f a) (f c) = true := fun a b c h1 h2 => strLe_trans h1 h2
  have hs1 := sortStable_pairwise (fun a b => strLe (f a) (f b)) htot htr l1
  have hs2 := sortStable_pairwise (fun a b => strLe (f a) (f b)) htot htr l2
  have hperm1 := sortStable_perm (fun a b => strLe (f a) (f b)) l1
  have hperm2 := sortStable_perm (fun a b => strLe (f a) (f b)) l2
  have hnd1 : ((sortStable (fun a b => strLe (f a) (f b)) l1).map f).Nodup :=
    hnd.perm ((hperm1.symm).map f)
  have hndl2 : (l2.map f).Nodup := hnd.perm (hp.map f)
  have hnd2 : ((sortStable (fun a b => strLe (f a) (f b)) l2).map f).Nodup :=
    hndl2.perm ((hperm2.symm).map f)
  have hpw1 : (sortStable (fun a b => strLe (f a) (f b)) l1).Pairwise
      (fun a b => f a ≠ f b) := List.pairwise_map.mp hnd1
  have hpw2 : (sortStable (fun a b => strLe (f a) (f b)) l2).Pairwise
      (fun a b => f a ≠ f b) := List.pairwise_map.mp hnd2
  haveI : IsAntisymm α (fun a b => strLe (f a) (f b) = true ∧ f a ≠ f b) :=
    ⟨fun a b hab hba => absurd (strLe_antisymm hab.1 hba.1) hab.2⟩
  exact List.eq_of_perm_of_sorted (hperm1.trans (hp.trans hperm2.symm))
    (hs1.and hpw1) (hs2.and hpw2)

/- ======================= theorems: serializer unfolding lemmas ======================= -/

theorem serializeList_eq (l : List Value) : serializeList l = l.map stableStringify := by
  induction l with
  | nil => rfl
  | cons v vs ih => simp [serializeList, ih]

theorem serializeEntries_eq (l : List (Value × Value)) :
    serializeEntries l = l.map (fun p => (stableStringify p.1, stableStringify p.2)) := by
  induction l with
  | nil => rfl
  | cons p rest ih =>
    cases p
    simp [serializeEntries, ih]

theorem serializeObjEntries_eq (l : List (ObjKey × Value)) :
    serializeObjEntries l = l.map (fun p => (p.1, stableStringify p.2)) := by
  induction l with
  | nil => rfl
  | cons p rest ih =>
    cases p
    simp [serializeObjEntries, ih]


/- ======================= theorems: kind tagging ======================= -/

/-- Every branch's output opens with that branch's tag, so the producing
branch can be read back off the serialized string. -/
theorem kindScan_stableStringify (v : Value) :
    kindScan (stableStringify v).data = some (kindOf v) := by
  cases v with
  | vnull => decide
  | undef => decide
  | str s =>
    have h : ("str:").data = ['s', 't', 'r', ':'] := by decide
    simp only [stableStringify, kindOf]
    rw [String.data_append, h]
    rfl
  | num n =>
    have h : ("num:").data = ['n', 'u', 'm', ':'] := by decide
    simp only [stableStringify, kindOf]
    rw [String.data_append, h]
    rfl
  | bool b =>
    have h : ("bool:").data = ['b', 'o', 'o', 'l', ':'] := by decide
    simp only [stableStringify, kindOf]
    rw [String.data_append, h]
    rfl
  | bigint i =>
    have h : ("bigint:").data = ['b', 'i', 'g', 'i', 'n', 't', ':'] := by decide
    simp only [stableStringify, kindOf]
    rw [String.data_append, h]
    rfl
  | sym d =>
    have h : ("sym:").data = ['s', 'y', 'm', ':'] := by decide
    simp only [stableStringify, kindOf]
    rw [String.data_append, h]
    rfl
  | fn name =>
    have h : ("fn:").data = ['f', 'n', ':'] := by decide
    simp only [stableStringify, kindOf]
    rw [String.data_append, h]
    rfl
  | date iso =>
    have h : ("date:").data = ['d', 'a', 't', 'e', ':'] := by decide
    simp only [stableStringify, kindOf]
    rw [String.data_append, h]
    rfl
  | regexp r =>
    have h : ("regexp:").data = ['r', 'e', 'g', 'e', 'x', 'p', ':'] := by decide
    simp only [stableStringify, kindOf]
    rw [String.data_append, h]
    rfl
  | typed c ns =>
    have h : ("typed:").data = ['t', 'y', 'p', 'e', 'd', ':'] := by decide
    simp only [stableStringify, kindOf]
    rw [String.data_append, String.data_append, String.data_append, h]
    rfl
  | arr es =>
    have h : ("[").data = ['['] := by decide
    simp only [stableStringify, kindOf]
    rw [String.data_append, String.data_append, h]
    rfl
  | map entries =>
    have h : ("map:\x7b").data = ['m', 'a', 'p', ':', '\x7b'] := by decide
    simp only [stableStringify, kindOf, mapBody]
    rw [String.data_append, String.data_append, h]
    rfl
  | set es =>
    have h : ("set:[").data = ['s', 'e', 't', ':', '['] := by decide
    simp only [stableStringify, kindOf, setBody]
    rw [String.data_append, String.data_append, h]
    rfl
  | obj pairs =>
    have h : ("\x7b").data = ['\x7b'] := by decide
    simp only [stableStringify, kindOf, objBody]
    rw [String.data_append, String.data_append, h]
    rfl
  | exotic tag =>
    have h : ("obj:").data = ['o', 'b', 'j', ':'] := by decide
    simp only [stableStringify, kindOf]
    rw [String.data_append, h]
    rfl

theorem stableStringify_data_ne_nil (v : Value) : (stableStringify v).data ≠ [] := by
  intro h
  have hk := kindScan_stableStringify v
  rw [h] at hk
  exact Option.noConfusion hk

/-- C10: a symbol with an absent description and a symbol with the empty
description both serialize to exactly `sym:`, and as plain-object keys both
emit the label `keysym:`, so the two collide in the canonical form. -/
theorem claim10_symbol_description_collision :
    stableStringify (.sym none) = "sym:"
      ∧ stableStringify (.sym (some "")) = "sym:"
      ∧ stableStringify (.obj [(.symKey none, .vnull)])
          = stableStringify (.obj [(.symKey (some ""), .vnull)])
      ∧ stableStringify (.obj [(.symKey none, .vnull)]) = "\x7bkeysym:=>null\x7d" :=
  ⟨by decide, by decide, by decide, by decide⟩

/-- C8: values of different kinds never share a serialized form, because each
kind's output begins with its own tag or bracket. -/
theorem claim8_distinct_kind_tags (v w : Value) (h : kindOf v ≠ kindOf w) :
    stableStringify v ≠ stableStringify w := by
  intro he
  apply h
  have h1 := kindScan_stableStringify v
  have h2 := kindScan_stableStringify w
  rw [he] at h1
  rw [h1] at h2
  exact Option.some.inj h2

/-- Witness for C8 at the claim's own examples: `1` vs `"1"`, and
`["todos"]` vs `"todos"`. -/
theorem claim8_distinct_kind_tags_witness :
    stableStringify (.num (.int 1)) ≠ stableStringify (.str "1")
      ∧ stableStringify (.arr [.str "todos"]) ≠ stableStringify (.str "todos") :=
  ⟨claim8_distinct_kind_tags _ _ (by decide), claim8_distinct_kind_tags _ _ (by decide)⟩


/- ======================= theorems: sequence order (C9) ======================= -/

theorem splitFirstComma :
    ∀ (a b as bs : List Char), ',' ∉ a → ',' ∉ b →
      a ++ ',' :: as = b ++ ',' :: bs → a = b ∧ as = bs := by
  intro a
  induction a with
  | nil =>
    intro b as bs _ hb h
    cases b with
    | nil =>
      simp only [List.nil_append] at h
      exact ⟨rfl, List.cons.inj h |>.2⟩
    | cons c cb =>
      simp only [List.nil_append, List.cons_append] at h
      rcases List.cons.inj h with ⟨rfl, _⟩
      exact absurd (List.mem_cons_self _ _) hb
  | cons c ca ih =>
    intro b as bs ha hb h
    cases b with
    | nil =>
      simp only [List.cons_append, List.nil_append] at h
      rcases List.cons.inj h with ⟨rfl, _⟩
      exact absurd (List.mem_cons_self _ _) ha
    | cons d db =>
      simp only [List.cons_append] at h
      rcases List.cons.inj h with ⟨rfl, htail⟩
      have ha2 : ',' ∉ ca := fun hm => ha (List.mem_cons_of_mem _ hm)
      have hb2 : ',' ∉ db := fun hm => hb (List.mem_cons_of_mem _ hm)
      rcases ih db as bs ha2 hb2 htail with ⟨rfl, rfl⟩
      exact ⟨rfl, rfl⟩

theorem joinComma_inj :
    ∀ xs ys : List String,
      (∀ x ∈ xs, x.data ≠ [] ∧ ',' ∉ x.data) →
      (∀ y ∈ ys, y.data ≠ [] ∧ ',' ∉ y.data) →
      joinComma xs = joinComma ys → xs = ys := by
  have hcomma : (",").data = [','] := by decide
  intro xs
  induction xs with
  | nil =>
    intro ys _ hys h
    cases ys with
    | nil => rfl
    | cons y ys2 =>
      exfalso
      cases ys2 with
      | nil =>
        exact (hys y (by simp)).1 (by simpa using (congrArg String.data h).symm)
      | cons y2 yr =>
        have hd := congrArg String.data h
        simp only [joinComma, String.data_append, hcomma] at hd
        have hnil : y.data ++ ([','] ++ (joinComma (y2 :: yr)).data) = [] := by
          simpa [List.append_assoc] using hd.symm
        simp at hnil
  | cons x xs2 ih =>
    intro ys hxs hys h
    cases ys with
    | nil =>
      exfalso
      cases xs2 with
      | nil =>
        exact (hxs x (by simp)).1 (by simpa using congrArg String.data h)
      | cons x2 xr =>
        have hd := congrArg String.data h
        simp only [joinComma, String.data_append, hcomma] at hd
        have hnil : x.data ++ ([','] ++ (joinComma (x2 :: xr)).data) = [] := by
          rw [← List.append_assoc]
          exact hd
        simp at hnil
    | cons y ys2 =>
      cases xs2 with
      | nil =>
        cases ys2 with
        | nil =>
          have : x = y := h
          rw [this]
        | cons y2 yr =>
          exfalso
          have hd := congrArg String.data h
          simp only [joinComma, String.data_append, hcomma] at hd
          apply (hxs x (by simp)).2
          rw [hd]
          simp [List.append_assoc]
      | cons x2 xr =>
        cases ys2 with
        | nil =>
          exfalso
          have hd := congrArg String.data h
          simp only [joinComma, String.data_append, hcomma] at hd
          apply (hys y (by simp)).2
          rw [← hd]
          simp [List.append_assoc]
        | cons y2 yr =>
          have hd := congrArg String.data h
          simp only [joinComma, String.data_append, hcomma, List.append_assoc,
            List.cons_append, List.nil_append] at hd
          rcases splitFirstComma x.data y.data _ _
              (hxs x (by simp)).2 (hys y (by simp)).2 hd with ⟨hxy, htail⟩
          have hx : x = y := stringDataEq hxy
          have hrest : joinComma (x2 :: xr) = joinComma (y2 :: yr) := stringDataEq htail
          have := ih (y2 :: yr) (fun z hz => hxs z (List.mem_cons_of_mem _ hz))
            (fun z hz => hys z (List.mem_cons_of_mem _ hz)) hrest
          rw [hx, this]

/-- C9 (counterexample): two sequences with the same elements in different
order, elements not all equal — a symbol with absent description and a
symbol with empty description — serialize identically, because both
elements serialize to `sym:`. (In JavaScript: `[Symbol(), Symbol('')]`
versus `[Symbol(''), Symbol()]`.) -/
theorem claim9_counterexample :
    [Value.sym none, Value.sym (some "")].Perm [Value.sym (some ""), Value.sym none]
      ∧ [Value.sym none, Value.sym (some "")] ≠ [Value.sym (some ""), Value.sym none]
      ∧ (∃ x ∈ [Value.sym none, Value.sym (some "")],
          ∃ y ∈ [Value.sym none, Value.sym (some "")], x ≠ y)
      ∧ stableStringify (.arr [.sym none, .sym (some "")])
          = stableStringify (.arr [.sym (some ""), .sym none]) := by
  refine ⟨List.Perm.swap _ _ _, ?_, ?_, by decide⟩
  · intro h
    simp at h
  · exact ⟨.sym none, by simp, .sym (some ""), by simp, by simp⟩

/-- C9 (amended): sequence order is positionally significant at the level of
serialized elements: two array serializations coincide exactly when the
comma-joined element serializations coincide; and when the element
serializations are comma-free (e.g. for primitive elements without commas),
any difference in the element-serialization sequence — in particular any
order change of distinct-serializing elements — changes the output.
Distinct values may still share a serialization (claim9_counterexample). -/
theorem claim9_amended_sequence_order (a b : List Value) :
    (stableStringify (.arr a) = stableStringify (.arr b)
        ↔ joinComma (serializeList a) = joinComma (serializeList b))
      ∧ ((∀ x ∈ a, commaFree (stableStringify x)) →
         (∀ y ∈ b, commaFree (stableStringify y)) →
         serializeList a ≠ serializeList b →
         stableStringify (.arr a) ≠ stableStringify (.arr b)) := by
  have hlb : ("[").data = ['['] := by decide
  have hrb : ("]").data = [']'] := by decide
  have hiff : stableStringify (.arr a) = stableStringify (.arr b)
      ↔ joinComma (serializeList a) = joinComma (serializeList b) := by
    constructor
    · intro h
      simp only [stableStringify] at h
      have hd := congrArg String.data h
      simp only [String.data_append, hlb, hrb, List.cons_append, List.nil_append,
        List.append_assoc] at hd
      exact stringDataEq (List.append_cancel_right ((List.cons.inj hd).2))
    · intro h
      simp only [stableStringify]
      rw [h]
  refine ⟨hiff, ?_⟩
  intro hca hcb hne he
  apply hne
  apply joinComma_inj
  · intro x hx
    rw [serializeList_eq] at hx
    rcases List.mem_map.1 hx with ⟨v, hv, rfl⟩
    exact ⟨stableStringify_data_ne_nil v, hca v hv⟩
  · intro y hy
    rw [serializeList_eq] at hy
    rcases List.mem_map.1 hy with ⟨v, hv, rfl⟩
    exact ⟨stableStringify_data_ne_nil v, hcb v hv⟩
  · exact hiff.1 he

/-- Witness for C9 (amended), applied at `[1]` versus `[2]`: comma-free
serializations, different element serializations, different outputs. -/
theorem claim9_amended_sequence_order_witness :
    stableStringify (.arr [.num (.int 1)]) ≠ stableStringify (.arr [.num (.int 2)]) :=
  (claim9_amended_sequence_order [.num (.int 1)] [.num (.int 2)]).2
    (by intro x hx; simp at hx; rw [hx]; unfold commaFree; decide)
    (by intro y hy; simp at hy; rw [hy]; unfold commaFree; decide)
    (by decide)


/- ======================= theorems: map entry order (C1) ======================= -/

/-- C1 (counterexample): two `Map`s holding the same entries — two distinct
empty-object keys bound to `1` and `2` (in JavaScript, `new Map([[{}, 1],
[{}, 2]])` and the same map built in the opposite insertion order) — do not
serialize identically, because the implementation sorts entries by the
serialized key alone (a stable sort keeps the insertion order of the two
colliding `{}` keys), while the spec's entry-string sort
(`specSortedMapBody`) would erase the insertion order. -/
theorem claim1_counterexample :
    [((Value.obj []), Value.num (.int 1)), ((Value.obj []), Value.num (.int 2))].Perm
        [((Value.obj []), Value.num (.int 2)), ((Value.obj []), Value.num (.int 1))]
      ∧ stableStringify (.map [((.obj []), .num (.int 1)), ((.obj []), .num (.int 2))])
          ≠ stableStringify (.map [((.obj []), .num (.int 2)), ((.obj []), .num (.int 1))])
      ∧ specSortedMapBody
            (serializeEntries [((.obj []), .num (.int 1)), ((.obj []), .num (.int 2))])
          = specSortedMapBody
            (serializeEntries [((.obj []), .num (.int 2)), ((.obj []), .num (.int 1))]) :=
  ⟨List.Perm.swap _ _ _, by decide, by decide⟩

/-- C1 (amended): `Map` entries are serialized as `key:value` pairs sorted
stably by serialized key, so insertion order never affects the output
provided the serialized keys are pairwise distinct (which holds for every
map whose keys have distinct canonical forms; it can fail only when two
distinct key objects serialize identically, as in claim1_counterexample). -/
theorem claim1_amended_map_insertion_order (e1 e2 : List (Value × Value))
    (hp : e1.Perm e2)
    (hnd : (e1.map (fun p => stableStringify p.1)).Nodup) :
    stableStringify (.map e1) = stableStringify (.map e2) := by
  simp only [stableStringify]
  rw [serializeEntries_eq, serializeEntries_eq]
  have hsort : sortStable (fun a b : String × String => strLe a.1 b.1)
      (e1.map (fun p => (stableStringify p.1, stableStringify p.2)))
      = sortStable (fun a b : String × String => strLe a.1 b.1)
      (e2.map (fun p => (stableStringify p.1, stableStringify p.2))) := by
    have h := sortStable_key_eq (fun q : String × String => q.1)
      (hp.map (fun p => (stableStringify p.1, stableStringify p.2)))
      (by rw [List.map_map]; exact hnd)
    exact h
  unfold mapBody
  rw [hsort]

/-- Witness for C1 (amended): `{b: 2, a: 1}`-shaped map entries in both
insertion orders, string keys (distinct serialized keys). -/
theorem claim1_amended_map_insertion_order_witness :
    stableStringify (.map [(.str "b", .num (.int 2)), (.str "a", .num (.int 1))])
      = stableStringify (.map [(.str "a", .num (.int 1)), (.str "b", .num (.int 2))]) :=
  claim1_amended_map_insertion_order _ _ (List.Perm.swap _ _ _) (by decide)

/- ======================= theorems: object key order (C2) ======================= -/

/-- C2 (counterexample): a plain object with two distinct symbol keys that
share the description `"d"` (in JavaScript, `{[Symbol('d')]: 1,
[Symbol('d')]: 2}`), in the two insertion orders: same keys, same value at
each key, but different canonical forms, because the symbol-key sort
compares descriptions only and is stable, so the colliding keys keep their
insertion order. -/
theorem claim2_counterexample :
    [(ObjKey.symKey (some "d"), Value.num (.int 1)),
        (ObjKey.symKey (some "d"), Value.num (.int 2))].Perm
      [(ObjKey.symKey (some "d"), Value.num (.int 2)),
        (ObjKey.symKey (some "d"), Value.num (.int 1))]
      ∧ stableStringify (.obj [(.symKey (some "d"), .num (.int 1)),
            (.symKey (some "d"), .num (.int 2))])
          ≠ stableStringify (.obj [(.symKey (some "d"), .num (.int 2)),
            (.symKey (some "d"), .num (.int 1))]) :=
  ⟨List.Perm.swap _ _ _, by decide⟩

theorem filterMapKeyRaw (p1 : List (ObjKey × Value)) (pred : ObjKey → Bool) :
    ((p1.map (fun p => (p.1, stableStringify p.2))).filter (fun p => pred p.1)).map
        (fun q => keyRaw q.1)
      = (p1.filter (fun q => pred q.1)).map (fun q => keyRaw q.1) := by
  induction p1 with
  | nil => rfl
  | cons a rest ih =>
    rcases a with ⟨k, v⟩
    by_cases h : pred k <;> simp [h, ih]

/-- C2 (amended): plain-object property insertion order never affects the
canonical form — string keys are emitted in sorted order followed by symbol
keys sorted by description — provided the string keys are distinct (always
true of a JavaScript object) and no two distinct symbol keys share the same
effective description (`description ?? ''`); the collision case is
claim2_counterexample. -/
theorem claim2_amended_object_key_order (p1 p2 : List (ObjKey × Value))
    (hp : p1.Perm p2)
    (hstr : ((p1.filter (fun q => isStrKey q.1)).map (fun q => keyRaw q.1)).Nodup)
    (hsym : ((p1.filter (fun q => !isStrKey q.1)).map (fun q => keyRaw q.1)).Nodup) :
    stableStringify (.obj p1) = stableStringify (.obj p2) := by
  simp only [stableStringify]
  rw [serializeObjEntries_eq, serializeObjEntries_eq]
  have hstr_sort : sortStable (fun a b : ObjKey × String => strLe (keyRaw a.1) (keyRaw b.1))
      ((p1.map (fun p => (p.1, stableStringify p.2))).filter (fun p => isStrKey p.1))
      = sortStable (fun a b : ObjKey × String => strLe (keyRaw a.1) (keyRaw b.1))
      ((p2.map (fun p => (p.1, stableStringify p.2))).filter (fun p => isStrKey p.1)) := by
    have h := sortStable_key_eq (fun q : ObjKey × String => keyRaw q.1)
      ((hp.map (fun p => (p.1, stableStringify p.2))).filter _)
      (by rw [filterMapKeyRaw]; exact hstr)
    exact h
  have hsym_sort : sortStable (fun a b : ObjKey × String => strLe (keyRaw a.1) (keyRaw b.1))
      ((p1.map (fun p => (p.1, stableStringify p.2))).filter (fun p => !isStrKey p.1))
      = sortStable (fun a b : ObjKey × String => strLe (keyRaw a.1) (keyRaw b.1))
      ((p2.map (fun p => (p.1, stableStringify p.2))).filter (fun p => !isStrKey p.1)) := by
    have h := sortStable_key_eq (fun q : ObjKey × String => keyRaw q.1)
      ((hp.map (fun p => (p.1, stableStringify p.2))).filter _)
      (by rw [filterMapKeyRaw p1 (fun k => !isStrKey k)]; exact hsym)
    exact h
  unfold objBody
  rw [hstr_sort, hsym_sort]

/-- Witness for C2 (amended): `{b: 2, a: 1}` versus `{a: 1, b: 2}`. -/
theorem claim2_amended_object_key_order_witness :
    stableStringify (.obj [(.strKey "b", .num (.int 2)), (.strKey "a", .num (.int 1))])
      = stableStringify (.obj [(.strKey "a", .num (.int 1)), (.strKey "b", .num (.int 2))]) :=
  claim2_amended_object_key_order _ _ (List.Perm.swap _ _ _) (by decide) (by decide)


/- ======================= theorems: heap model (C3) ======================= -/

theorem seenOkNil (h : List HObj) : SeenOk h [] :=
  ⟨List.nodup_nil, by intro a ha; cases ha⟩

theorem getElemOptOfGet {h : List HObj} {b : Nat} (hblt : b < h.length) {o : HObj}
    (hget : h.get ⟨b, hblt⟩ = o) : h[b]? = some o := by
  refine List.getElem?_eq_some.2 ⟨hblt, ?_⟩
  have hx := hget
  rw [List.get_eq_getElem] at hx
  exact hx

theorem getElemOfGet {h : List HObj} {b : Nat} (hblt : b < h.length) {o : HObj}
    (hget : h.get ⟨b, hblt⟩ = o) : h[b] = o := by
  have hx := hget
  rw [List.get_eq_getElem] at hx
  exact hx

theorem getOfGetElemOpt {h : List HObj} {b : Nat} {o : HObj} (hb : h[b]? = some o) :
    ∃ (hblt : b < h.length), h.get ⟨b, hblt⟩ = o := by
  rcases List.getElem?_eq_some.1 hb with ⟨hblt, hval⟩
  exact ⟨hblt, by rw [List.get_eq_getElem]; exact hval⟩

theorem strHList_ok_of_forall {h : List HObj} {seen2 : List Nat} :
    ∀ (es : List HVal) (ts : List Value), es.length = ts.length →
      (∀ i (h1 : i < es.length) (h2 : i < ts.length) (hs : SeenOk h seen2),
        strHV h seen2 hs (es.get ⟨i, h1⟩) = .ok (stableStringify (ts.get ⟨i, h2⟩))) →
      ∀ (hs : SeenOk h seen2), strHList h seen2 hs es = .ok (ts.map stableStringify) := by
  intro es
  induction es with
  | nil =>
    intro ts hlen _ hs
    cases ts with
    | nil => simp [strHList]
    | cons t tr => simp at hlen
  | cons e rest ih =>
    intro ts hlen hch hs
    cases ts with
    | nil => simp at hlen
    | cons t tr =>
      have h0 : strHV h seen2 hs e = .ok (stableStringify t) := hch 0 (by simp) (by simp) hs
      have hr := ih tr (by simpa using hlen)
        (fun i h1 h2 hs2 =>
          hch (i + 1) (by simpa using Nat.succ_lt_succ h1)
            (by simpa using Nat.succ_lt_succ h2) hs2) hs
      simp [strHList, h0, hr]

theorem strHPairs_ok_of_forall {h : List HObj} {seen2 : List Nat} :
    ∀ (es : List (HVal × HVal)) (ts : List (Value × Value)), es.length = ts.length →
      (∀ i (h1 : i < es.length) (h2 : i < ts.length) (hs : SeenOk h seen2),
        strHV h seen2 hs (es.get ⟨i, h1⟩).1 = .ok (stableStringify (ts.get ⟨i, h2⟩).1)) →
      (∀ i (h1 : i < es.length) (h2 : i < ts.length) (hs : SeenOk h seen2),
        strHV h seen2 hs (es.get ⟨i, h1⟩).2 = .ok (stableStringify (ts.get ⟨i, h2⟩).2)) →
      ∀ (hs : SeenOk h seen2), strHPairs h seen2 hs es
        = .ok (ts.map (fun p => (stableStringify p.1, stableStringify p.2))) := by
  intro es
  induction es with
  | nil =>
    intro ts hlen _ _ hs
    cases ts with
    | nil => simp [strHPairs]
    | cons t tr => simp at hlen
  | cons e rest ih =>
    intro ts hlen hk hv hs
    cases ts with
    | nil => simp at hlen
    | cons t tr =>
      rcases e with ⟨ek, ev⟩
      rcases t with ⟨tk, tv⟩
      have h0k : strHV h seen2 hs ek = .ok (stableStringify tk) :=
        hk 0 (by simp) (by simp) hs
      have h0v : strHV h seen2 hs ev = .ok (stableStringify tv) :=
        hv 0 (by simp) (by simp) hs
      have hr := ih tr (by simpa using hlen)
        (fun i h1 h2 hs2 =>
          hk (i + 1) (by simpa using Nat.succ_lt_succ h1)
            (by simpa using Nat.succ_lt_succ h2) hs2)
        (fun i h1 h2 hs2 =>
          hv (i + 1) (by simpa using Nat.succ_lt_succ h1)
            (by simpa using Nat.succ_lt_succ h2) hs2) hs
      simp [strHPairs, h0k, h0v, hr]

theorem strHObjPairs_ok_of_forall {h : List HObj} {seen2 : List Nat} :
    ∀ (es : List (ObjKey × HVal)) (ts : List (ObjKey × Value)), es.length = ts.length →
      (∀ i (h1 : i < es.length) (h2 : i < ts.length),
        (es.get ⟨i, h1⟩).1 = (ts.get ⟨i, h2⟩).1) →
      (∀ i (h1 : i < es.length) (h2 : i < ts.length) (hs : SeenOk h seen2),
        strHV h seen2 hs (es.get ⟨i, h1⟩).2 = .ok (stableStringify (ts.get ⟨i, h2⟩).2)) →
      ∀ (hs : SeenOk h seen2), strHObjPairs h seen2 hs es
        = .ok (ts.map (fun p => (p.1, stableStringify p.2))) := by
  intro es
  induction es with
  | nil =>
    intro ts hlen _ _ hs
    cases ts with
    | nil => simp [strHObjPairs]
    | cons t tr => simp at hlen
  | cons e rest ih =>
    intro ts hlen hk hv hs
    cases ts with
    | nil => simp at hlen
    | cons t tr =>
      rcases e with ⟨ek, ev⟩
      rcases t with ⟨tk, tv⟩
      have h0k : ek = tk := hk 0 (by simp) (by simp)
      have h0v : strHV h seen2 hs ev = .ok (stableStringify tv) :=
        hv 0 (by simp) (by simp) hs
      have hr := ih tr (by simpa using hlen)
        (fun i h1 h2 =>
          hk (i + 1) (by simpa using Nat.succ_lt_succ h1)
            (by simpa using Nat.succ_lt_succ h2))
        (fun i h1 h2 hs2 =>
          hv (i + 1) (by simpa using Nat.succ_lt_succ h1)
            (by simpa using Nat.succ_lt_succ h2) hs2) hs
      subst h0k
      simp [strHObjPairs, h0v, hr]

/-- Soundness of the heap serializer against the tree model: if a heap value
unwinds (without re-entering active collections) to the tree `t`, the heap
serializer succeeds and returns exactly the tree serialization of `t`. -/
theorem unfolds_sound {h : List HObj} {seen : List Nat} {v : HVal} {t : Value}
    (hu : Unfolds h seen v t) :
    ∀ (hs : SeenOk h seen), strHV h seen hs v = .ok (stableStringify t) := by
  induction hu with
  | uatom seen a =>
    intro hs
    simp [strHV]
  | uexotic seen b tag hb =>
    intro hs
    rcases getOfGetElemOpt hb with ⟨hblt, hget⟩
    simp only [strHV, dif_pos hblt, hget]
    simp [stableStringify]
  | uarr seen b es ts hb hmem hlen hch ih =>
    intro hs
    rcases getOfGetElemOpt hb with ⟨hblt, hget⟩
    have hlist := strHList_ok_of_forall es ts hlen (fun i h1 h2 hs2 => ih i h1 h2 hs2)
    simp only [strHV, dif_pos hblt, hget, dif_neg hmem, hlist]
    simp [stableStringify, serializeList_eq]
  | umap seen b es ts hb hmem hlen hchk hchv ihk ihv =>
    intro hs
    rcases getOfGetElemOpt hb with ⟨hblt, hget⟩
    have hpairs := strHPairs_ok_of_forall es ts hlen
      (fun i h1 h2 hs2 => ihk i h1 h2 hs2) (fun i h1 h2 hs2 => ihv i h1 h2 hs2)
    simp only [strHV, dif_pos hblt, hget, dif_neg hmem, hpairs]
    simp [stableStringify, serializeEntries_eq]
  | uset seen b es ts hb hmem hlen hch ih =>
    intro hs
    rcases getOfGetElemOpt hb with ⟨hblt, hget⟩
    have hlist := strHList_ok_of_forall es ts hlen (fun i h1 h2 hs2 => ih i h1 h2 hs2)
    simp only [strHV, dif_pos hblt, hget, dif_neg hmem, hlist]
    simp [stableStringify, serializeList_eq]
  | uobj seen b es ts hb hmem hlen hkeys hchv ihv =>
    intro hs
    rcases getOfGetElemOpt hb with ⟨hblt, hget⟩
    have hpairs := strHObjPairs_ok_of_forall es ts hlen hkeys
      (fun i h1 h2 hs2 => ihv i h1 h2 hs2)
    simp only [strHV, dif_pos hblt, hget, dif_neg hmem, hpairs]
    simp [stableStringify, serializeObjEntries_eq]


theorem strHList_dichotomy {h : List HObj} {seen2 : List Nat}
    (ihf : ∀ (v : HVal), ClosedV h.length v →
      (∃ t, Unfolds h seen2 v t ∧ ∀ (hs : SeenOk h seen2),
          strHV h seen2 hs v = .ok (stableStringify t))
      ∨ (∃ k, ∀ (hs : SeenOk h seen2), strHV h seen2 hs v = .error (.circular k))) :
    ∀ es : List HVal, (∀ e ∈ es, ClosedV h.length e) →
      (∃ ts : List Value, es.length = ts.length ∧
        (∀ i (h1 : i < es.length) (h2 : i < ts.length),
          Unfolds h seen2 (es.get ⟨i, h1⟩) (ts.get ⟨i, h2⟩)) ∧
        ∀ (hs : SeenOk h seen2), strHList h seen2 hs es = .ok (ts.map stableStringify))
      ∨ (∃ k, ∀ (hs : SeenOk h seen2), strHList h seen2 hs es = .error (.circular k)) := by
  intro es
  induction es with
  | nil =>
    intro _
    left
    refine ⟨[], rfl, ?_, fun hs => by simp [strHList]⟩
    intro i h1 h2
    exact absurd h1 (by simp)
  | cons e rest ih =>
    intro hcl
    rcases ihf e (hcl e (by simp)) with ⟨t, hut, hoke⟩ | ⟨k, herre⟩
    · rcases ih (fun x hx => hcl x (by simp [hx])) with ⟨ts, hlen, hall, hok⟩ | ⟨k, herr⟩
      · left
        refine ⟨t :: ts, by simp [hlen], ?_, fun hs => ?_⟩
        · intro i h1 h2
          cases i with
          | zero => exact hut
          | succ j => exact hall j (by simpa using h1) (by simpa using h2)
        · simp [strHList, hoke, hok]
      · right
        exact ⟨k, fun hs => by simp [strHList, hoke, herr]⟩
    · right
      exact ⟨k, fun hs => by simp [strHList, herre]⟩

theorem strHPairs_dichotomy {h : List HObj} {seen2 : List Nat}
    (ihf : ∀ (v : HVal), ClosedV h.length v →
      (∃ t, Unfolds h seen2 v t ∧ ∀ (hs : SeenOk h seen2),
          strHV h seen2 hs v = .ok (stableStringify t))
      ∨ (∃ k, ∀ (hs : SeenOk h seen2), strHV h seen2 hs v = .error (.circular k))) :
    ∀ es : List (HVal × HVal), (∀ p ∈ es, ClosedV h.length p.1 ∧ ClosedV h.length p.2) →
      (∃ ts : List (Value × Value), es.length = ts.length ∧
        (∀ i (h1 : i < es.length) (h2 : i < ts.length),
          Unfolds h seen2 (es.get ⟨i, h1⟩).1 (ts.get ⟨i, h2⟩).1) ∧
        (∀ i (h1 : i < es.length) (h2 : i < ts.length),
          Unfolds h seen2 (es.get ⟨i, h1⟩).2 (ts.get ⟨i, h2⟩).2) ∧
        ∀ (hs : SeenOk h seen2), strHPairs h seen2 hs es
          = .ok (ts.map (fun p => (stableStringify p.1, stableStringify p.2))))
      ∨ (∃ k, ∀ (hs : SeenOk h seen2), strHPairs h seen2 hs es = .error (.circular k)) := by
  intro es
  induction es with
  | nil =>
    intro _
    left
    refine ⟨[], rfl, ?_, ?_, fun hs => by simp [strHPairs]⟩
    · intro i h1 h2
      exact absurd h1 (by simp)
    · intro i h1 h2
      exact absurd h1 (by simp)
  | cons e rest ih =>
    intro hcl
    rcases e with ⟨ek, ev⟩
    rcases ihf ek (hcl (ek, ev) (by simp)).1 with ⟨tk, hutk, hokk⟩ | ⟨k, herrk⟩
    · rcases ihf ev (hcl (ek, ev) (by simp)).2 with ⟨tv, hutv, hokv⟩ | ⟨k, herrv⟩
      · rcases ih (fun x hx => hcl x (by simp [hx])) with
          ⟨ts, hlen, hallk, hallv, hok⟩ | ⟨k, herr⟩
        · left
          refine ⟨(tk, tv) :: ts, by simp [hlen], ?_, ?_, fun hs => ?_⟩
          · intro i h1 h2
            cases i with
            | zero => exact hutk
            | succ j => exact hallk j (by simpa using h1) (by simpa using h2)
          · intro i h1 h2
            cases i with
            | zero => exact hutv
            | succ j => exact hallv j (by simpa using h1) (by simpa using h2)
          · simp [strHPairs, hokk, hokv, hok]
        · right
          exact ⟨k, fun hs => by simp [strHPairs, hokk, hokv, herr]⟩
      · right
        exact ⟨k, fun hs => by simp [strHPairs, hokk, herrv]⟩
    · right
      exact ⟨k, fun hs => by simp [strHPairs, herrk]⟩

theorem strHObjPairs_dichotomy {h : List HObj} {seen2 : List Nat}
    (ihf : ∀ (v : HVal), ClosedV h.length v →
      (∃ t, Unfolds h seen2 v t ∧ ∀ (hs : SeenOk h seen2),
          strHV h seen2 hs v = .ok (stableStringify t))
      ∨ (∃ k, ∀ (hs : SeenOk h seen2), strHV h seen2 hs v = .error (.circular k))) :
    ∀ es : List (ObjKey × HVal), (∀ p ∈ es, ClosedV h.length p.2) →
      (∃ ts : List (ObjKey × Value), es.length = ts.length ∧
        (∀ i (h1 : i < es.length) (h2 : i < ts.length),
          (es.get ⟨i, h1⟩).1 = (ts.get ⟨i, h2⟩).1) ∧
        (∀ i (h1 : i < es.length) (h2 : i < ts.length),
          Unfolds h seen2 (es.get ⟨i, h1⟩).2 (ts.get ⟨i, h2⟩).2) ∧
        ∀ (hs : SeenOk h seen2), strHObjPairs h seen2 hs es
          = .ok (ts.map (fun p => (p.1, stableStringify p.2))))
      ∨ (∃ k, ∀ (hs : SeenOk h seen2), strHObjPairs h seen2 hs es = .error (.circular k)) := by
  intro es
  induction es with
  | nil =>
    intro _
    left
    refine ⟨[], rfl, ?_, ?_, fun hs => by simp [strHObjPairs]⟩
    · intro i h1 h2
      exact absurd h1 (by simp)
    · intro i h1 h2
      exact absurd h1 (by simp)
  | cons e rest ih =>
    intro hcl
    rcases e with ⟨ek, ev⟩
    rcases ihf ev (hcl (ek, ev) (by simp)) with ⟨tv, hutv, hokv⟩ | ⟨k, herrv⟩
    · rcases ih (fun x hx => hcl x (by simp [hx])) with
        ⟨ts, hlen, hallk, hallv, hok⟩ | ⟨k, herr⟩
      · left
        refine ⟨(ek, tv) :: ts, by simp [hlen], ?_, ?_, fun hs => ?_⟩
        · intro i h1 h2
          cases i with
          | zero => rfl
          | succ j => exact hallk j (by simpa using h1) (by simpa using h2)
        · intro i h1 h2
          cases i with
          | zero => exact hutv
          | succ j => exact hallv j (by simpa using h1) (by simpa using h2)
        · simp [strHObjPairs, hokv, hok]
      · right
        exact ⟨k, fun hs => by simp [strHObjPairs, hokv, herr]⟩
    · right
      exact ⟨k, fun hs => by simp [strHObjPairs, herrv]⟩

/-- Every closed heap value either unwinds to a tree (and the serializer
returns that tree's serialization) or the serializer reports a circular
reference; proved by strong induction on the free capacity of the `seen`
set. -/
theorem strHV_dichotomy {h : List HObj} (hch : ClosedHeap h) :
    ∀ (n : Nat) (seen : List Nat), SeenOk h seen → ∀ (v : HVal),
      h.length - seen.length ≤ n → ClosedV h.length v →
      (∃ t, Unfolds h seen v t ∧ ∀ (hs : SeenOk h seen),
          strHV h seen hs v = .ok (stableStringify t))
      ∨ (∃ k, ∀ (hs : SeenOk h seen), strHV h seen hs v = .error (.circular k)) := by
  intro n
  induction n with
  | zero =>
    intro seen hsA v hgap hcv
    cases v with
    | atom a =>
      left
      exact ⟨atomToValue a, Unfolds.uatom _ _, fun hs => by simp [strHV]⟩
    | href b =>
      have hblt : b < h.length := hcv
      have hbmem : b ∈ seen := by
        by_contra hmem
        have h1 : (b :: seen).Nodup := List.nodup_cons.2 ⟨hmem, hsA.1⟩
        have h2 : (b :: seen) ⊆ List.range h.length := by
          intro x hx
          rcases List.mem_cons.1 hx with rfl | hx
          · simpa using hblt
          · simpa using hsA.2 x hx
        have h3 := List.Subperm.length_le (List.subperm_of_subset h1 h2)
        simp at h3
        omega
      cases hget : h.get ⟨b, hblt⟩ with
      | hexotic tag =>
        left
        exact ⟨.exotic tag, Unfolds.uexotic _ _ _ (getElemOptOfGet hblt hget),
          fun hs => by simp [strHV, dif_pos hblt, getElemOfGet hblt hget, stableStringify]⟩
      | harr es =>
        right
        exact ⟨.ckArr, fun hs => by simp [strHV, dif_pos hblt, getElemOfGet hblt hget, dif_pos hbmem]⟩
      | hmap es =>
        right
        exact ⟨.ckMap, fun hs => by simp [strHV, dif_pos hblt, getElemOfGet hblt hget, dif_pos hbmem]⟩
      | hset es =>
        right
        exact ⟨.ckSet, fun hs => by simp [strHV, dif_pos hblt, getElemOfGet hblt hget, dif_pos hbmem]⟩
      | hobj es =>
        right
        exact ⟨.ckObj, fun hs => by simp [strHV, dif_pos hblt, getElemOfGet hblt hget, dif_pos hbmem]⟩
  | succ n ihn =>
    intro seen hsA v hgap hcv
    cases v with
    | atom a =>
      left
      exact ⟨atomToValue a, Unfolds.uatom _ _, fun hs => by simp [strHV]⟩
    | href b =>
      have hblt : b < h.length := hcv
      cases hget : h.get ⟨b, hblt⟩ with
      | hexotic tag =>
        left
        exact ⟨.exotic tag, Unfolds.uexotic _ _ _ (getElemOptOfGet hblt hget),
          fun hs => by simp [strHV, dif_pos hblt, getElemOfGet hblt hget, stableStringify]⟩
      | harr es =>
        by_cases hbmem : b ∈ seen
        · right
          exact ⟨.ckArr, fun hs => by simp [strHV, dif_pos hblt, getElemOfGet hblt hget, dif_pos hbmem]⟩
        · have hs2 : SeenOk h (b :: seen) := ⟨List.nodup_cons.2 ⟨hbmem, hsA.1⟩, by
            intro a ha
            rcases List.mem_cons.1 ha with rfl | ha
            · exact hblt
            · exact hsA.2 a ha⟩
          have hgap2 : h.length - (b :: seen).length ≤ n := by
            simp only [List.length_cons]
            omega
          have hobjmem : HObj.harr es ∈ h := by
            rw [← hget]
            exact List.get_mem h b hblt
          have helems : ∀ e ∈ es, ClosedV h.length e := hch _ hobjmem
          rcases strHList_dichotomy (fun v2 hcv2 => ihn (b :: seen) hs2 v2 hgap2 hcv2)
              es helems with ⟨ts, hlen, hall, hok⟩ | ⟨k, herr⟩
          · left
            refine ⟨.arr ts,
              Unfolds.uarr _ _ _ _ (getElemOptOfGet hblt hget) hbmem hlen hall,
              fun hs => ?_⟩
            simp [strHV, dif_pos hblt, getElemOfGet hblt hget, dif_neg hbmem, hok,
              stableStringify, serializeList_eq]
          · right
            exact ⟨k, fun hs => by
              simp [strHV, dif_pos hblt, getElemOfGet hblt hget, dif_neg hbmem, herr]⟩
      | hmap es =>
        by_cases hbmem : b ∈ seen
        · right
          exact ⟨.ckMap, fun hs => by simp [strHV, dif_pos hblt, getElemOfGet hblt hget, dif_pos hbmem]⟩
        · have hs2 : SeenOk h (b :: seen) := ⟨List.nodup_cons.2 ⟨hbmem, hsA.1⟩, by
            intro a ha
            rcases List.mem_cons.1 ha with rfl | ha
            · exact hblt
            · exact hsA.2 a ha⟩
          have hgap2 : h.length - (b :: seen).length ≤ n := by
            simp only [List.length_cons]
            omega
          have hobjmem : HObj.hmap es ∈ h := by
            rw [← hget]
            exact List.get_mem h b hblt
          have helems : ∀ p ∈ es, ClosedV h.length p.1 ∧ ClosedV h.length p.2 :=
            hch _ hobjmem
          rcases strHPairs_dichotomy (fun v2 hcv2 => ihn (b :: seen) hs2 v2 hgap2 hcv2)
              es helems with ⟨ts, hlen, hallk, hallv, hok⟩ | ⟨k, herr⟩
          · left
            refine ⟨.map ts,
              Unfolds.umap _ _ _ _ (getElemOptOfGet hblt hget) hbmem hlen hallk hallv,
              fun hs => ?_⟩
            simp [strHV, dif_pos hblt, getElemOfGet hblt hget, dif_neg hbmem, hok,
              stableStringify, serializeEntries_eq]
          · right
            exact ⟨k, fun hs => by
              simp [strHV, dif_pos hblt, getElemOfGet hblt hget, dif_neg hbmem, herr]⟩
      | hset es =>
        by_cases hbmem : b ∈ seen
        · right
          exact ⟨.ckSet, fun hs => by simp [strHV, dif_pos hblt, getElemOfGet hblt hget, dif_pos hbmem]⟩
        · have hs2 : SeenOk h (b :: seen) := ⟨List.nodup_cons.2 ⟨hbmem, hsA.1⟩, by
            intro a ha
            rcases List.mem_cons.1 ha with rfl | ha
            · exact hblt
            · exact hsA.2 a ha⟩
          have hgap2 : h.length - (b :: seen).length ≤ n := by
            simp only [List.length_cons]
            omega
          have hobjmem : HObj.hset es ∈ h := by
            rw [← hget]
            exact List.get_mem h b hblt
          have helems : ∀ e ∈ es, ClosedV h.length e := hch _ hobjmem
          rcases strHList_dichotomy (fun v2 hcv2 => ihn (b :: seen) hs2 v2 hgap2 hcv2)
              es helems with ⟨ts, hlen, hall, hok⟩ | ⟨k, herr⟩
          · left
            refine ⟨.set ts,
              Unfolds.uset _ _ _ _ (getElemOptOfGet hblt hget) hbmem hlen hall,
              fun hs => ?_⟩
            simp [strHV, dif_pos hblt, getElemOfGet hblt hget, dif_neg hbmem, hok,
              stableStringify, serializeList_eq]
          · right
            exact ⟨k, fun hs => by
              simp [strHV, dif_pos hblt, getElemOfGet hblt hget, dif_neg hbmem, herr]⟩
      | hobj es =>
        by_cases hbmem : b ∈ seen
        · right
          exact ⟨.ckObj, fun hs => by simp [strHV, dif_pos hblt, getElemOfGet hblt hget, dif_pos hbmem]⟩
        · have hs2 : SeenOk h (b :: seen) := ⟨List.nodup_cons.2 ⟨hbmem, hsA.1⟩, by
            intro a ha
            rcases List.mem_cons.1 ha with rfl | ha
            · exact hblt
            · exact hsA.2 a ha⟩
          have hgap2 : h.length - (b :: seen).length ≤ n := by
            simp only [List.length_cons]
            omega
          have hobjmem : HObj.hobj es ∈ h := by
            rw [← hget]
            exact List.get_mem h b hblt
          have helems : ∀ p ∈ es, ClosedV h.length p.2 := hch _ hobjmem
          rcases strHObjPairs_dichotomy (fun v2 hcv2 => ihn (b :: seen) hs2 v2 hgap2 hcv2)
              es helems with ⟨ts, hlen, hallk, hallv, hok⟩ | ⟨k, herr⟩
          · left
            refine ⟨.obj ts,
              Unfolds.uobj _ _ _ _ (getElemOptOfGet hblt hget) hbmem hlen hallk hallv,
              fun hs => ?_⟩
            simp [strHV, dif_pos hblt, getElemOfGet hblt hget, dif_neg hbmem, hok,
              stableStringify, serializeObjEntries_eq]
          · right
            exact ⟨k, fun hs => by
              simp [strHV, dif_pos hblt, getElemOfGet hblt hget, dif_neg hbmem, herr]⟩


/-- C3: over a closed heap, serialization of a value is total with the only
failure mode being a circular reference: every value that unwinds to a tree
(acyclic values) serializes to that tree's canonical form without raising,
every value with no tree unwinding (cyclic values) produces a
`circular` error carrying the collection kind; at the four canonical
one-node cycles the error carries the kind of the collection that closed the
cycle, and each kind's `TypeError` message names that kind. -/
theorem claim3_totality_and_circular_errors (h : List HObj) (v : HVal)
    (hch : ClosedHeap h) (hcv : ClosedV h.length v) :
    (∀ t, Unfolds h [] v t → strHV h [] (seenOkNil h) v = .ok (stableStringify t))
    ∧ ((¬ ∃ t, Unfolds h [] v t) →
        ∃ k, strHV h [] (seenOkNil h) v = .error (.circular k))
    ∧ strHV [HObj.harr [HVal.href 0]] [] (seenOkNil _) (.href 0)
        = .error (.circular .ckArr)
    ∧ strHV [HObj.hmap [(HVal.atom .hnull, HVal.href 0)]] [] (seenOkNil _) (.href 0)
        = .error (.circular .ckMap)
    ∧ strHV [HObj.hset [HVal.href 0]] [] (seenOkNil _) (.href 0)
        = .error (.circular .ckSet)
    ∧ strHV [HObj.hobj [(ObjKey.strKey "self", HVal.href 0)]] [] (seenOkNil _) (.href 0)
        = .error (.circular .ckObj)
    ∧ circularMessage .ckArr = "stableStringify: circular array reference"
    ∧ circularMessage .ckMap = "stableStringify: circular Map reference"
    ∧ circularMessage .ckSet = "stableStringify: circular Set reference"
    ∧ circularMessage .ckObj = "stableStringify: circular object reference" := by
  refine ⟨?_, ?_, ?_, ?_, ?_, ?_, rfl, rfl, rfl, rfl⟩
  · intro t hu
    exact unfolds_sound hu (seenOkNil h)
  · intro hnone
    rcases strHV_dichotomy hch h.length [] (seenOkNil h) v (by simp) hcv with
      ⟨t, hu, _⟩ | ⟨k, herr⟩
    · exact absurd ⟨t, hu⟩ hnone
    · exact ⟨k, herr (seenOkNil h)⟩
  · simp [strHV, strHList]
  · simp [strHV, strHPairs]
  · simp [strHV, strHList]
  · simp [strHV, strHObjPairs]

/-- Witness for C3: the one-node cyclic array heap is closed, its root has no
tree unwinding, and the theorem yields the circular-reference error. -/
theorem claim3_totality_and_circular_errors_witness :
    ∃ k, strHV [HObj.harr [HVal.href 0]] [] (seenOkNil [HObj.harr [HVal.href 0]])
      (.href 0) = .error (.circular k) := by
  have hch : ClosedHeap [HObj.harr [HVal.href 0]] := by
    intro o ho
    simp at ho
    subst ho
    intro e he
    simp at he
    subst he
    show (0 : Nat) < 1
    omega
  have hcv : ClosedV (List.length [HObj.harr [HVal.href 0]]) (HVal.href 0) := by
    show (0 : Nat) < 1
    omega
  have hnou : ¬ ∃ t, Unfolds [HObj.harr [HVal.href 0]] [] (.href 0) t := by
    rintro ⟨t, hu⟩
    cases hu with
    | uexotic seen b tag hb => simp [List.getElem?_cons_zero] at hb
    | uarr seen b es ts hb hmem hlen hchild =>
      simp [List.getElem?_cons_zero] at hb
      subst hb
      have hts : 0 < ts.length := by
        simp at hlen
        omega
      have hu2 := hchild 0 (by simp) hts
      generalize ts.get ⟨0, hts⟩ = t2 at hu2
      cases hu2 with
      | uexotic seen2 b2 tag2 hb2 => simp [List.getElem?_cons_zero] at hb2
      | uarr seen2 b2 es2 ts2 hb2 hmem2 hlen2 hchild2 => exact hmem2 (by simp)
      | umap seen2 b2 es2 ts2 hb2 hmem2 hlen2 hk2 hv2 => exact hmem2 (by simp)
      | uset seen2 b2 es2 ts2 hb2 hmem2 hlen2 hchild2 => exact hmem2 (by simp)
      | uobj seen2 b2 es2 ts2 hb2 hmem2 hlen2 hk2 hv2 => exact hmem2 (by simp)
    | umap seen b es ts hb hmem hlen hk hv => simp [List.getElem?_cons_zero] at hb
    | uset seen b es ts hb hmem hlen hchild => simp [List.getElem?_cons_zero] at hb
    | uobj seen b es ts hb hmem hlen hk hv => simp [List.getElem?_cons_zero] at hb
  exact (claim3_totality_and_circular_errors _ _ hch hcv).2.1 hnou


/- ======================= theorems: notification bus ======================= -/

theorem notify_events (s : BusState T) (v : T) : (notify s v).2 = [] := by
  unfold notify
  by_cases h : s.pendingFlush <;> simp [h]

theorem notify_fields (s : BusState T) (v : T) :
    (notify s v).1.listeners = s.listeners ∧ (notify s v).1.pendingFlush = true
      ∧ (notify s v).1.hasQueuedValue = true ∧ (notify s v).1.lastValue = some v := by
  unfold notify
  by_cases h : s.pendingFlush <;> simp [h]

theorem notifySeq_events : ∀ (vs : List T) (s : BusState T), (notifySeq s vs).2 = [] := by
  intro vs
  induction vs with
  | nil => intro s; rfl
  | cons v rest ih =>
    intro s
    simp [notifySeq, notify_events, ih]

theorem notifySeq_state : ∀ (vs : List T) (hne : vs ≠ []) (s : BusState T),
    (notifySeq s vs).1.listeners = s.listeners
      ∧ (notifySeq s vs).1.pendingFlush = true
      ∧ (notifySeq s vs).1.hasQueuedValue = true
      ∧ (notifySeq s vs).1.lastValue = some (vs.getLast hne) := by
  intro vs
  induction vs with
  | nil => intro hne; exact absurd rfl hne
  | cons v rest ih =>
    intro hne s
    rcases notify_fields s v with ⟨h1, h2, h3, h4⟩
    cases rest with
    | nil => exact ⟨h1, h2, h3, h4⟩
    | cons w ws =>
      have hih := ih (by simp) (notify s v).1
      refine ⟨?_, ?_, ?_, ?_⟩
      · show (notifySeq (notify s v).1 (w :: ws)).1.listeners = s.listeners
        rw [hih.1, h1]
      · exact hih.2.1
      · exact hih.2.2.1
      · show (notifySeq (notify s v).1 (w :: ws)).1.lastValue
          = some ((v :: w :: ws).getLast hne)
        rw [hih.2.2.2]
        congr 1

theorem invokedEvents_deliverAll (beh : Nat → T → Bool) (p : T) :
    ∀ ls : List Nat, invokedEvents (deliverAll beh p ls) = ls.map (fun l => (l, p)) := by
  intro ls
  induction ls with
  | nil => rfl
  | cons l rest ih =>
    by_cases hb : beh l p <;> simp [deliverAll, invokedEvents, hb, ih]

theorem flush_characterization (beh : Nat → T → Bool) (s : BusState T) (p : T)
    (hq : s.hasQueuedValue = true) (hl : s.lastValue = some p) :
    (flush beh s).1.pendingFlush = false ∧ (flush beh s).1.hasQueuedValue = false
      ∧ (flush beh s).1.listeners = s.listeners
      ∧ (flush beh s).2 = deliverAll beh p s.listeners := by
  unfold flush
  simp [hq, hl]

theorem flush_no_value (beh : Nat → T → Bool) (s : BusState T)
    (hq : s.hasQueuedValue = false) :
    flush beh s = ({ s with pendingFlush := false }, []) := by
  unfold flush
  simp [hq]

/-- C4: any number of `notify` calls issued synchronously (no suspension
point between them) deliver nothing themselves (empty trace), leave exactly
one flush scheduled, and the scheduled flush invokes each registered
listener exactly once with only the value of the last call; a further flush
delivers nothing (the pending value was consumed). -/
theorem claim4_synchronous_notify_coalesces (T : Type) (s0 : BusState T)
    (beh : Nat → T → Bool) (vs : List T)
    (_hidle : s0.pendingFlush = false) (hne : vs ≠ []) :
    (notifySeq s0 vs).2 = []
    ∧ (notifySeq s0 vs).1.pendingFlush = true
    ∧ invokedEvents (flush beh (notifySeq s0 vs).1).2
        = s0.listeners.map (fun l => (l, vs.getLast hne))
    ∧ (flush beh (notifySeq s0 vs).1).1.pendingFlush = false
    ∧ (flush beh (notifySeq s0 vs).1).1.hasQueuedValue = false
    ∧ (flush beh (flush beh (notifySeq s0 vs).1).1).2 = [] := by
  rcases notifySeq_state vs hne s0 with ⟨hl, hp, hq, hv⟩
  rcases flush_characterization beh _ _ hq hv with ⟨f1, f2, f3, f4⟩
  refine ⟨notifySeq_events vs s0, hp, ?_, f1, f2, ?_⟩
  · rw [f4, hl, invokedEvents_deliverAll]
  · rw [flush_no_value beh (flush beh (notifySeq s0 vs).1).1 f2]

/-- Witness for C4: one listener (7), three synchronous notifications
`1; 2; 3` from the idle state: the flush delivers `3` to listener 7 once. -/
theorem claim4_synchronous_notify_coalesces_witness :
    invokedEvents (flush (fun _ _ => false)
        (notifySeq (BusState.mk [7] false false none) [1, 2, 3]).1).2 = [(7, 3)]
      ∧ (notifySeq (BusState.mk [7] false false (none : Option Nat)) [1, 2, 3]).2 = [] := by
  have h := claim4_synchronous_notify_coalesces Nat (BusState.mk [7] false false none)
    (fun _ _ => false) [1, 2, 3] rfl (by simp)
  refine ⟨?_, h.1⟩
  rw [h.2.2.1]
  decide

theorem applyWin_flags (s : BusState T) (op : WinOp) :
    (applyWin s op).pendingFlush = s.pendingFlush
      ∧ (applyWin s op).hasQueuedValue = s.hasQueuedValue
      ∧ (applyWin s op).lastValue = s.lastValue := by
  cases op <;> simp [applyWin, subscribe, runUnsub]

theorem foldWin_flags : ∀ (ops : List WinOp) (s : BusState T),
    (ops.foldl applyWin s).pendingFlush = s.pendingFlush
      ∧ (ops.foldl applyWin s).hasQueuedValue = s.hasQueuedValue
      ∧ (ops.foldl applyWin s).lastValue = s.lastValue := by
  intro ops
  induction ops with
  | nil => intro s; exact ⟨rfl, rfl, rfl⟩
  | cons op rest ih =>
    intro s
    rcases applyWin_flags s op with ⟨h1, h2, h3⟩
    rcases ih (applyWin s op) with ⟨g1, g2, g3⟩
    exact ⟨g1.trans h1, g2.trans h2, g3.trans h3⟩

/-- C5: the flush delivers to the listener registry as it stands at flush
time, not at schedule time: after a `notify` and any window of
subscribe/unsubscribe operations, the delivery trace is exactly the current
registry (in insertion order) paired with the pending value — listeners
added in the window receive it, listeners removed in the window do not. -/
theorem claim5_snapshot_at_flush_time (T : Type) (s0 : BusState T)
    (beh : Nat → T → Bool) (v : T) (ops : List WinOp)
    (_hidle : s0.pendingFlush = false) :
    (ops.foldl applyWin (notify s0 v).1).lastValue = some v
    ∧ (ops.foldl applyWin (notify s0 v).1).hasQueuedValue = true
    ∧ invokedEvents (flush beh (ops.foldl applyWin (notify s0 v).1)).2
        = (ops.foldl applyWin (notify s0 v).1).listeners.map (fun l => (l, v))
    ∧ (∀ l, l ∈ (ops.foldl applyWin (notify s0 v).1).listeners →
        (l, v) ∈ invokedEvents (flush beh (ops.foldl applyWin (notify s0 v).1)).2)
    ∧ (∀ l, l ∉ (ops.foldl applyWin (notify s0 v).1).listeners →
        ∀ p, (l, p) ∉ invokedEvents (flush beh (ops.foldl applyWin (notify s0 v).1)).2) := by
  rcases notify_fields s0 v with ⟨n1, n2, n3, n4⟩
  rcases foldWin_flags ops (notify s0 v).1 with ⟨w1, w2, w3⟩
  have hq : (ops.foldl applyWin (notify s0 v).1).hasQueuedValue = true := w2.trans n3
  have hv : (ops.foldl applyWin (notify s0 v).1).lastValue = some v := w3.trans n4
  rcases flush_characterization beh _ _ hq hv with ⟨f1, f2, f3, f4⟩
  have hmap : invokedEvents (flush beh (ops.foldl applyWin (notify s0 v).1)).2
      = (ops.foldl applyWin (notify s0 v).1).listeners.map (fun l => (l, v)) := by
    rw [f4, invokedEvents_deliverAll]
  refine ⟨hv, hq, hmap, ?_, ?_⟩
  · intro l hl
    rw [hmap]
    exact List.mem_map_of_mem _ hl
  · intro l hl p hmem
    rw [hmap] at hmem
    rcases List.mem_map.1 hmem with ⟨x, hx, hxe⟩
    have hx1 : x = l := congrArg Prod.fst hxe
    subst hx1
    exact hl hx

/-- Witness for C5: listener 7 registered before `notify 42`; in the window,
8 subscribes and 7 unsubscribes; the flush delivers to 8 only. -/
theorem claim5_snapshot_at_flush_time_witness :
    invokedEvents (flush (fun _ _ => false)
        (([WinOp.wsub 8, WinOp.wunsub 7].foldl applyWin
          (notify (BusState.mk [7] false false none) 42).1))).2 = [(8, 42)] := by
  have h := claim5_snapshot_at_flush_time Nat (BusState.mk [7] false false none)
    (fun _ _ => false) 42 [WinOp.wsub 8, WinOp.wunsub 7] rfl
  rw [h.2.2.1]
  decide

theorem errorsFor_deliverAll_not_mem (beh : Nat → T → Bool) (p : T) (l : Nat) :
    ∀ ls : List Nat, l ∉ ls → errorsFor l (deliverAll beh p ls) = [] := by
  intro ls
  induction ls with
  | nil => intro _; rfl
  | cons m rest ih =>
    intro hl
    have hml : ¬ (m = l) := fun hc => hl (by simp [hc])
    by_cases hb : beh m p <;>
      simp [deliverAll, errorsFor, hml, hb, ih (fun hc => hl (by simp [hc])),
        List.filter_append] <;>
      simpa [errorsFor] using ih (fun hc => hl (by simp [hc]))

theorem errorsFor_deliverAll_mem (beh : Nat → T → Bool) (p : T) (l : Nat) :
    ∀ ls : List Nat, ls.Nodup → l ∈ ls →
      errorsFor l (deliverAll beh p ls)
        = (if beh l p then [BusEvent.errorRouted l] else []) := by
  intro ls
  induction ls with
  | nil => intro _ hl; cases hl
  | cons m rest ih =>
    intro hnd hl
    rcases List.nodup_cons.1 hnd with ⟨hm, hnd2⟩
    by_cases hml : m = l
    · subst hml
      have hrest : errorsFor m (deliverAll beh p rest) = [] :=
        errorsFor_deliverAll_not_mem beh p m rest hm
      by_cases hb : beh m p <;>
        simp [deliverAll, errorsFor, hb, List.filter_append] <;>
        simpa [errorsFor] using hrest
    · have hl2 : l ∈ rest := by
        rcases List.mem_cons.1 hl with rfl | hl2
        · exact absurd rfl hml
        · exact hl2
      by_cases hb : beh m p <;>
        simp [deliverAll, errorsFor, hml, hb, List.filter_append] <;>
        simpa [errorsFor] using ih hnd2 hl2

/-- C6: during one flush every snapshotted listener is invoked with the
payload regardless of earlier throws (the trace's invocation records are the
full registry in order, for any throw behaviour), each throwing listener is
routed to `onNotifyError` exactly once and each non-throwing one never, and
the flush completes (pending value consumed; the model's flush is a total
function, so no exception propagates). -/
theorem claim6_listener_errors_isolated (T : Type) (s : BusState T)
    (beh : Nat → T → Bool) (p : T) (hq : s.hasQueuedValue = true)
    (hl : s.lastValue = some p) (hnd : s.listeners.Nodup) :
    (flush beh s).2 = deliverAll beh p s.listeners
    ∧ invokedEvents (flush beh s).2 = s.listeners.map (fun l => (l, p))
    ∧ (∀ l ∈ s.listeners, beh l p = true →
        errorsFor l (flush beh s).2 = [BusEvent.errorRouted l])
    ∧ (∀ l ∈ s.listeners, beh l p = false → errorsFor l (flush beh s).2 = [])
    ∧ (flush beh s).1.hasQueuedValue = false := by
  rcases flush_characterization beh s p hq hl with ⟨f1, f2, f3, f4⟩
  refine ⟨f4, ?_, ?_, ?_, f2⟩
  · rw [f4, invokedEvents_deliverAll]
  · intro l hlmem hb
    rw [f4, errorsFor_deliverAll_mem beh p l s.listeners hnd hlmem, if_pos hb]
  · intro l hlmem hb
    rw [f4, errorsFor_deliverAll_mem beh p l s.listeners hnd hlmem, if_neg (by simp [hb])]

/-- Witness for C6: listeners 1, 2, 3; listener 2 throws on payload 5: all
three are invoked with 5, and exactly one error is routed for listener 2. -/
theorem claim6_listener_errors_isolated_witness :
    invokedEvents (flush (fun l _ => l == 2) (BusState.mk [1, 2, 3] true true (some 5))).2
        = [(1, 5), (2, 5), (3, 5)]
      ∧ errorsFor 2 (flush (fun l _ => l == 2)
          (BusState.mk [1, 2, 3] true true (some 5))).2 = [BusEvent.errorRouted 2]
      ∧ errorsFor 1 (flush (fun l _ => l == 2)
          (BusState.mk [1, 2, 3] true true (some 5))).2 = [] := by
  have h := claim6_listener_errors_isolated Nat (BusState.mk [1, 2, 3] true true (some 5))
    (fun l _ => l == 2) 5 rfl rfl (by decide)
  refine ⟨?_, ?_, ?_⟩
  · rw [h.2.1]
    decide
  · exact h.2.2.1 2 (by decide) (by decide)
  · exact h.2.2.2.1 1 (by decide) (by decide)

/-- C7: the closure returned by `subscribe` is idempotent: the first call
removes the listener from the registry (`erase`; a no-op when absent) and
fires `onUnsubscribe` exactly when the listener was present; the second call
changes nothing, emits nothing, and (being a total function) cannot throw. -/
theorem claim7_unsubscribe_idempotent (T : Type) (s : BusState T) (m : Nat) :
    (subscribe s m).2.1 = Unsub.mk m false
    ∧ (runUnsub s (Unsub.mk m false)).1.listeners = s.listeners.erase m
    ∧ (runUnsub s (Unsub.mk m false)).2.1 = Unsub.mk m true
    ∧ (runUnsub s (Unsub.mk m false)).2.2
        = (if m ∈ s.listeners then [BusEvent.unsubscribedEvt] else [])
    ∧ runUnsub (runUnsub s (Unsub.mk m false)).1 (runUnsub s (Unsub.mk m false)).2.1
        = ((runUnsub s (Unsub.mk m false)).1, (runUnsub s (Unsub.mk m false)).2.1,
            ([] : List (BusEvent T))) := by
  refine ⟨rfl, ?_, ?_, ?_, ?_⟩ <;> simp [subscribe, runUnsub]

end MiniTQ
